import Mathlib

set_option linter.unusedVariables false
set_option linter.unnecessarySimpa false

/-!
Shallow embedding of the hybrid CPU/GPU multi-dimensional range-query index
(`src/src/tree/hybrid.cpp` of the repository).  The tree node headers
(`node/node.h`, `node/node_soa.h`) and the common macros are not under `src/`;
the few facts taken from them (the per-dimension interval overlap test, the
parallel reduction summing the per-thread hit flags) are modelled from the
spec and marked as such in the doc comments.
-/

/-- A bounding box: one `(low, high)` pair per dimension.  Coordinates are
modelled as integers (the claims under verification are about index
arithmetic and traversal logic, not floating-point rounding). -/
abbrev Box : Type := List (Int × Int)

/-- Modelled from the spec: `Node::IsOverlap` / `Node_SOA::IsOverlap`
(`node.h`, `node_soa.h`, not under `src/`) — the standard per-dimension
interval overlap test between a query box and a branch bounding box. -/
def boxOverlap (q b : Box) : Bool :=
  (q.zip b).all fun p => decide (p.1.1 ≤ p.2.2) && decide (p.2.1 ≤ p.1.2)

/-- Per-dimension containment of `inner` inside `outer` (used to state the
MBR invariant of a well-formed tree: an internal branch's box covers every
leaf box in its subtree). -/
def boxContains (outer inner : Box) : Bool :=
  (outer.zip inner).all fun p => decide (p.1.1 ≤ p.2.1) && decide (p.2.2 ≤ p.1.2)

/-- A leaf-level branch of a `Node`: bounding box, branch index
(`GetBranchIndex`, an `ll`), and the child offset field, which for a leaf
branch holds a reference to the source data. -/
structure LBranch where
  box : Box
  idx : Int
  ref : Int
deriving DecidableEq

instance : Inhabited LBranch := ⟨⟨[], 0, 0⟩⟩

/-- `Node_SOA`: structure-of-arrays mirror of one leaf node — the
per-branch bounding boxes in branch order (`GetBranchCount` is the length). -/
structure NodeSOA where
  branches : List Box
deriving DecidableEq

instance : Inhabited NodeSOA := ⟨⟨[]⟩⟩

mutual
/-- In-memory `node::Node` tree as linked during the build: a node is either
a leaf (list of leaf branches) or an internal node with a branch list.  An
internal branch carries its box, branch index, the raw in-memory child
offset field (`GetBranchChildOffset`, a pointer during build), and the child
node itself (`GetBranchChildNode`). -/
inductive AH where
  | leaf (bs : List LBranch)
  | internal (bs : IBr)
deriving DecidableEq
/-- Branch list of an internal node (box, index, raw child offset, child). -/
inductive IBr where
  | nil
  | cons (box : Box) (idx : Int) (ref : Int) (child : AH) (rest : IBr)
deriving DecidableEq
end

/-- The child nodes of an internal branch list, in branch order. -/
def childrenI : IBr → List AH
  | .nil => []
  | .cons _ _ _ c rest => c :: childrenI rest

/-- Children pushed by the dump loop for one node (empty for leaves). -/
def childrenOf : AH → List AH
  | .leaf _ => []
  | .internal bs => childrenI bs

/-- The raw `(box, index, child offset)` triples of an internal branch list,
as laid out in the serialized `Node` record. -/
def ibrToList : IBr → List (Box × Int × Int)
  | .nil => []
  | .cons box idx ref _ rest => (box, idx, ref) :: ibrToList rest

mutual
/-- Number of nodes in a subtree (used as recursion fuel for the
queue-based breadth-first dump). -/
def sizeA : AH → Nat
  | .leaf _ => 1
  | .internal bs => 1 + sizeI bs
/-- Total node count of the subtrees hanging off a branch list. -/
def sizeI : IBr → Nat
  | .nil => 0
  | .cons _ _ _ c rest => sizeA c + sizeI rest
end

/-- Total node count of a queue of subtrees. -/
def sizeQ (Q : List AH) : Nat := (Q.map sizeA).sum

mutual
/-- The leaf nodes of a subtree (each as its branch list), left to right. -/
def leavesA : AH → List (List LBranch)
  | .leaf bs => [bs]
  | .internal bs => leavesI bs
/-- Leaf nodes of all subtrees of a branch list, left to right. -/
def leavesI : IBr → List (List LBranch)
  | .nil => []
  | .cons _ _ _ c rest => leavesA c ++ leavesI rest
end

/-- All leaf branches of a subtree in left-to-right order. -/
def leafBranchesA (t : AH) : List LBranch := (leavesA t).flatten

/-- All leaf branches below a branch list in left-to-right order. -/
def leafBranchesI (bs : IBr) : List LBranch := (leavesI bs).flatten

/-- All leaf branch indices of a subtree in left-to-right order. -/
def leafIdxsA (t : AH) : List Int := (leafBranchesA t).map (·.idx)

/-- All leaf branch indices below a branch list. -/
def leafIdxsI (bs : IBr) : List Int := (leafBranchesI bs).map (·.idx)

/-- Whether the branch indices of a leaf node are strictly increasing in
branch order (the build assigns consecutive indices). -/
def idxSorted : List LBranch → Bool
  | [] => true
  | [_] => true
  | a :: b :: rest => decide (a.idx < b.idx) && idxSorted (b :: rest)

mutual
/-- Structural well-formedness of a built tree (dimension `d`): boxes have
dimension `d`; leaf branch indices increase in branch order; every internal
branch's index dominates the leaf branch indices of its subtree, its box
contains every leaf box of its subtree, and leaf indices of later sibling
subtrees are strictly larger.  These are the invariants the top-down bulk
build establishes (the build pipeline itself, `Top_Down` etc., is invoked
from `Hybrid::Build` but lives outside the traversal code under
scrutiny). -/
def wfA (d : Nat) : AH → Bool
  | .leaf bs => (bs.all fun b => b.box.length == d) && idxSorted bs
  | .internal bs => wfI d bs
/-- Well-formedness of an internal branch list, see `wfA`. -/
def wfI (d : Nat) : IBr → Bool
  | .nil => true
  | .cons box idx _ child rest =>
      (box.length == d) && wfA d child &&
      (leafIdxsA child).all (fun j => decide (j ≤ idx)) &&
      (leafBranchesA child).all (fun lb => boxContains box lb.box) &&
      (leafIdxsI rest).all (fun j => decide (idx < j)) &&
      wfI d rest
end

/-- The correspondence the leaf-layout transform establishes between the
leaf level of the tree and the `Node_SOA` buffer: leaf node `j` of the tree
is `node_soa_ptr[j]`, with the same boxes in the same branch order, between
1 and `degree` branches per node, and the global 1-based consecutive branch
indexing `index(j, b) = j * degree + b + 1` that `Hybrid::Search` inverts
with `(start_node_index - 1) / GetNumberOfDegrees()`. -/
def leavesMatchSOA (deg : Nat) (ls : List (List LBranch)) (soa : List NodeSOA) : Bool :=
  (ls.length == soa.length) &&
  (List.range ls.length).all fun j =>
    let bs := ls.getD j []
    let nd := soa.getD j default
    (nd.branches == bs.map (fun b => b.box)) &&
    decide (1 ≤ bs.length) && decide (bs.length ≤ deg) &&
    (List.range bs.length).all fun b =>
      decide ((bs.getD b default).idx = (j * deg + b + 1 : Int))

/-- A built tree together with its SOA leaf buffer, as produced by the build
pipeline: structurally well formed and with the leaf level matching the SOA
buffer under the global branch indexing. -/
def TreeWF (d deg : Nat) (t : AH) (soa : List NodeSOA) : Prop :=
  wfA d t = true ∧ leavesMatchSOA deg (leavesA t) soa = true

/-- The leaf-node loop of `Hybrid::TraverseInternalNodes`: return the index
of the first branch whose `GetBranchIndex` exceeds `visited_leafIndex`,
`0` if none does. -/
def leafFirst (v : Int) : List LBranch → Int
  | [] => 0
  | b :: rest => if v < b.idx then b.idx else leafFirst v rest

mutual
/-- `Hybrid::TraverseInternalNodes` (hybrid.cpp:316-344).  Returns the pair
`(start_node_index, node_visit_count)`: at an internal node it walks the
branches in order, recursing into a branch iff its index exceeds
`visited_leafIndex` and its box overlaps the query, breaking as soon as a
recursion returns a positive index; at a leaf it returns the first branch
index exceeding `visited_leafIndex`.  The visit counter is incremented once
per node entered. -/
def traverseInternalNodes (q : Box) (v : Int) : AH → Int × Nat
  | .leaf bs => (leafFirst v bs, 1)
  | .internal bs =>
      let p := traverseI q v bs 0
      (p.1, p.2 + 1)
/-- The internal-node branch loop of `TraverseInternalNodes`; `acc` is the
current value of the local `start_node_index` (updated by every recursion
taken, kept across branches whose guard fails). -/
def traverseI (q : Box) (v : Int) : IBr → Int → Int × Nat
  | .nil, acc => (acc, 0)
  | .cons box idx _ child rest, acc =>
      if v < idx && boxOverlap q box then
        let p := traverseInternalNodes q v child
        if 0 < p.1 then p
        else
          let p2 := traverseI q v rest p.1
          (p2.1, p.2 + p2.2)
      else traverseI q v rest acc
end

mutual
/-- Whether the subtree contains a leaf branch with index above
`visited_leafIndex` reachable through internal branches that all satisfy the
descent guard (index above `visited_leafIndex` and box overlapping the
query) — the spec's "some node in the subtree satisfies the condition". -/
def hasCandA (q : Box) (v : Int) : AH → Bool
  | .leaf bs => bs.any fun b => decide (v < b.idx)
  | .internal bs => hasCandI q v bs
/-- `hasCandA` over a branch list. -/
def hasCandI (q : Box) (v : Int) : IBr → Bool
  | .nil => false
  | .cons box idx _ child rest =>
      (decide (v < idx) && boxOverlap q box && hasCandA q v child) || hasCandI q v rest
end

mutual
/-- Modelled from the spec's words (for comparison with the code): the node
visit count the traversal would produce if it descended into *every* child
whose box overlaps the query and whose branch index exceeds
`visited_leafIndex`, as the claim's "descends ... if and only if" states. -/
def visitAllA (q : Box) (v : Int) : AH → Nat
  | .leaf _ => 1
  | .internal bs => 1 + visitAllI q v bs
/-- `visitAllA` over a branch list. -/
def visitAllI (q : Box) (v : Int) : IBr → Nat
  | .nil => 0
  | .cons box idx _ child rest =>
      (if v < idx ∧ boxOverlap q box = true then visitAllA q v child else 0)
        + visitAllI q v rest
end

/-- Hits of one `Node_SOA` as counted by `Hybrid::Thread_BruteForce`
(hybrid.cpp:400-410): one hit per branch whose box overlaps the query. -/
def soaNodeHits (q : Box) (n : NodeSOA) : Nat :=
  (n.branches.filter fun b => boxOverlap q b).length

/-- Hits of one `Node_SOA` as counted by one iteration of the device kernel
`global_ParallelScanning_Leafnodes` (hybrid.cpp:455-468): thread `tid`
tests branch `tid`, so only branch slots below the thread count `nt`
(`GetNumberOfThreads()`) are tested. -/
def soaNodeHitsCapped (nt : Nat) (q : Box) (n : NodeSOA) : Nat :=
  ((n.branches.take nt).filter fun b => boxOverlap q b).length

/-- Hits accumulated by thread block `bid` of one invocation of
`global_ParallelScanning_Leafnodes` over the chunk `[s, s+c)`: the block
owns the stride `node_itr = bid, bid+NB, ...` below `c` (that is, the
`i < c` with `i % NB = bid`) and scans leaf node `s + i` for each.  The
per-thread flags `t_hit` are folded by `ParallelReduction` into one count
per block (reduction modelled from the spec as the sum, `macro.h` not being
under `src/`). -/
def blockHits (NB nt : Nat) (soa : List NodeSOA) (q : Box) (s c bid : Nat) : Nat :=
  ∑ i ∈ (Finset.range c).filter (fun i => i % NB = bid),
    soaNodeHitsCapped nt q (soa.getD (s + i) default)

/-- Aggregate hit count of one kernel invocation, summed over all `NB`
blocks (`GetNumberOfBlocks()`), as `Hybrid::Search` sums `h_hit` at the
end (hybrid.cpp:296-299). -/
def invocationHits (NB nt : Nat) (soa : List NodeSOA) (q : Box) (s c : Nat) : Nat :=
  ∑ bid ∈ Finset.range NB, blockHits NB nt soa q s c bid

/-- Ground truth: total overlap count over the leaf nodes `[0, e)` of the
SOA buffer. -/
def totalUpTo (q : Box) (soa : List NodeSOA) (e : Nat) : Nat :=
  ∑ j ∈ Finset.range e, soaNodeHits q (soa.getD j default)

/-- The chunk-size adjustment of `Hybrid::Search` (hybrid.cpp:266-270): if
`start_node_offset + chunk_size` exceeds `leaf_node_count`, the field is
reassigned `leaf_node_count - start_node_offset`.  The subtraction is done
in `ll` and stored into the unsigned 32-bit `chunk_size` member, hence the
reduction modulo `2^32`. -/
def clipChunk (leaf : Nat) (start : Int) (chunk : Nat) : Nat :=
  if (start + chunk : Int) > (leaf : Int)
  then ((((leaf : Int) - start) % (2 ^ 32 : Int)).toNat)
  else chunk

/-- The per-query mutable state of `Hybrid::Search`: `visited_leafIndex`
(`ll`), the `chunk_size` member (`ui`, shared across queries), and the
running aggregate device hit count. -/
structure SearchState where
  visited : Int
  chunk : Nat
  hits : Nat
deriving DecidableEq

/-- The per-query jump loop of `Hybrid::Search` (hybrid.cpp:248-284): call
`TraverseInternalNodes`; stop on the sentinel `0`; otherwise derive
`start_node_offset = (start_node_index - 1) / degree` (C truncating `ll`
division), clip the chunk size, launch the device scan over
`[start_node_offset, start_node_offset + chunk_size)`, and advance
`visited_leafIndex` to `(start_node_offset + chunk_size) * degree`.  The
source loop is `while(1)`; it is modelled with explicit fuel, and the
equivalence theorem below holds for every fuel of at least
`leaf_node_count + 1`, which the loop never exhausts. -/
def searchJumps (NB nt deg : Nat) (t : AH) (soa : List NodeSOA) (q : Box) :
    Nat → SearchState → SearchState
  | 0, st => st
  | fuel + 1, st =>
      let r := (traverseInternalNodes q st.visited t).1
      if r = 0 then st
      else
        let start : Int := (r - 1).tdiv deg
        let c := clipChunk soa.length start st.chunk
        searchJumps NB nt deg t soa q fuel
          { visited := (start + c) * deg,
            chunk := c,
            hits := st.hits + invocationHits NB nt soa q start.toNat c }

/-- The outer query loop of `Hybrid::Search` (hybrid.cpp:242-288):
`visited_leafIndex` restarts at `0` for each query, the device hit
accumulator carries across queries, and the `chunk_size` member is *not*
reset between queries.  Returns `(total hits, final chunk_size)`. -/
def searchQueries (NB nt deg : Nat) (t : AH) (soa : List NodeSOA) :
    List Box → Nat → Nat → Nat × Nat
  | [], ch, h => (h, ch)
  | q :: qs, ch, h =>
      let st := searchJumps NB nt deg t soa q (soa.length + 1) ⟨0, ch, h⟩
      searchQueries NB nt deg t soa qs st.chunk st.hits

/-- The thread-partition loop of `Hybrid::BruteForceSearchOnCPU`
(hybrid.cpp:360-372): starting from `start_offset = 0` and
`end_offset = chunk + leaf % nthreads`, each iteration records
`(start_offset, end_offset)` and then advances `start = end`,
`end += chunk`. -/
def bruteRangesGo : Nat → Nat → Nat → Nat → List (Nat × Nat)
  | 0, _, _, _ => []
  | k + 1, c, s, e => (s, e) :: bruteRangesGo k c e (e + c)

/-- The per-thread leaf ranges of `BruteForceSearchOnCPU` for
`leaf_node_count = leaf` and `number_of_threads = nt`. -/
def bruteRanges (leaf nt : Nat) : List (Nat × Nat) :=
  bruteRangesGo nt (leaf / nt) 0 (leaf / nt + leaf % nt)

/-- Modelled from the spec's words (for comparison with the code): the
claimed partition — every thread owns `leaf / nt` nodes and the *last*
thread absorbs the remainder. -/
def claimRanges (leaf nt : Nat) : List (Nat × Nat) :=
  (List.range nt).map fun i =>
    (i * (leaf / nt), if i = nt - 1 then leaf else (i + 1) * (leaf / nt))

/-- The matching leaf offsets recorded by `Hybrid::Thread_BruteForce` over
its range `[s, e)`: the node offset is recorded once per overlapping branch,
nodes in ascending order. -/
def threadOffsets (q : Box) (soa : List NodeSOA) (s e : Nat) : List Nat :=
  (List.range' s (e - s)).flatMap fun j =>
    List.replicate (soaNodeHits q (soa.getD j default)) j

/-- The total CPU brute-force hit count (hybrid.cpp:346-398): each thread
accumulates into its slot of the stack array `ui thread_hit[nt]`, which the
function never initializes, so thread `i` starts from an indeterminate
value `inits i`; the per-thread counts are then summed. -/
def bruteForceTotalHits (q : Box) (soa : List NodeSOA) (nt : Nat) (inits : Nat → Nat) : Nat :=
  ((bruteRanges soa.length nt).zip (List.range nt) |>.map fun p =>
    inits p.2 + ∑ i ∈ Finset.range (p.1.2 - p.1.1),
      soaNodeHits q (soa.getD (p.1.1 + i) default)).sum

/-- The combined offset list of `BruteForceSearchOnCPU`: the per-thread
lists concatenated in thread order and then sorted ascending
(`std::sort`, modelled by `List.mergeSort`). -/
def bruteForceSortedOffsets (q : Box) (soa : List NodeSOA) (nt : Nat) : List Nat :=
  (((bruteRanges soa.length nt).map fun p => threadOffsets q soa p.1 p.2).flatten).mergeSort
    (fun a b => decide (a ≤ b))

/-- One serialized `Node` record as laid out by
`fwrite(node, sizeof(node::Node), 1, index_file)`: the node-type tag and
the raw `(box, index, child offset)` branch triples. -/
structure NRec where
  internalTag : Bool
  brs : List (Box × Int × Int)
deriving DecidableEq

instance : Inhabited NRec := ⟨⟨false, []⟩⟩

/-- The child-offset patch loop of `Hybrid::DumpToFile` (hybrid.cpp:171-182):
when a node is popped with `qlen` nodes left in the queue, pushing its
`k`-th child makes the queue size `qlen + k + 1`, and the branch's child
offset is reassigned `bfs_queue.size() * sizeof(node::Node)`. -/
def patchI (qlen ns : Nat) : Nat → IBr → IBr
  | _, .nil => .nil
  | k, .cons box idx _ child rest =>
      .cons box idx ((qlen + k + 1) * ns : Int) child (patchI qlen ns (k + 1) rest)

/-- The recovery loop of `DumpToFile` (hybrid.cpp:189-194): child offset
`k` is reassigned `original_child_offset[k]`. -/
def restoreI : List Int → IBr → IBr
  | _, .nil => .nil
  | [], bs => bs
  | o :: os, .cons box idx _ child rest => .cons box idx o child (restoreI os rest)

/-- The backup loop of `DumpToFile` (hybrid.cpp:177): the original child
offsets, in branch order, captured before each is patched. -/
def backupOffsets : IBr → List Int
  | .nil => []
  | .cons _ _ ref _ rest => ref :: backupOffsets rest

/-- The serializable content of an in-memory node as it stands *before* the
dump patches it: tag plus raw branch triples. -/
def recOf : AH → NRec
  | .leaf bs => ⟨false, bs.map fun b => (b.box, b.idx, b.ref)⟩
  | .internal bs => ⟨true, ibrToList bs⟩

/-- The record `DumpToFile` actually writes for a node popped with `qlen`
nodes left in the queue: leaf nodes verbatim, internal nodes with the child
offsets patched. -/
def recPatched (qlen ns : Nat) : AH → NRec
  | .leaf bs => ⟨false, bs.map fun b => (b.box, b.idx, b.ref)⟩
  | .internal bs => ⟨true, ibrToList (patchI qlen ns 0 bs)⟩

/-- The state of a node right after `DumpToFile` processed it: its child
offsets were patched and then restored from the backup vector. -/
def nodeAfterDump (qlen ns : Nat) : AH → AH
  | .leaf bs => .leaf bs
  | .internal bs => .internal (restoreI (backupOffsets bs) (patchI qlen ns 0 bs))

/-- Breadth-first node order produced by the queue loop of `DumpToFile`
(pop the front, push its children), with explicit fuel; `bfsQ` instantiates
the fuel with the total node count, which the loop never exhausts. -/
def bfsQF : Nat → List AH → List AH
  | _, [] => []
  | 0, _ :: _ => []
  | fuel + 1, n :: rest => n :: bfsQF fuel (rest ++ childrenOf n)

/-- Breadth-first node order of a queue. -/
def bfsQ (Q : List AH) : List AH := bfsQF (sizeQ Q) Q

/-- The queue loop of `Hybrid::DumpToFile` (hybrid.cpp:156-196), with
explicit fuel: for each popped node it emits the written record (child
offsets patched with the current queue size) and the node as it stands
after the backup/patch/restore sequence, then pushes the node's children. -/
def dumpPassF (ns : Nat) : Nat → List AH → List NRec × List AH
  | _, [] => ([], [])
  | 0, _ :: _ => ([], [])
  | fuel + 1, n :: rest =>
      let p := dumpPassF ns fuel (rest ++ childrenOf n)
      (recPatched rest.length ns n :: p.1, nodeAfterDump rest.length ns n :: p.2)

/-- The `Node` records `DumpToFile` writes, in breadth-first order. -/
def dumpRecs (ns : Nat) (Q : List AH) : List NRec := (dumpPassF ns (sizeQ Q) Q).1

/-- The in-memory nodes after `DumpToFile` completes, in breadth-first
order. -/
def dumpPost (ns : Nat) (Q : List AH) : List AH := (dumpPassF ns (sizeQ Q) Q).2

/-- A serialized record with the child-reference field of each branch
erased: node tag plus `(box, index)` per branch. -/
def stripRec (r : NRec) : Bool × List (Box × Int) :=
  (r.internalTag, r.brs.map fun b => (b.1, b.2.1))

/-- One fixed-size field or record of the binary index file, in write
order. -/
inductive Tok where
  | sz (n : Nat)
  | cnt (n : Nat)
  | node (r : NRec)
  | soa (s : NodeSOA)
deriving DecidableEq

/-- The tree-owning state of a `Hybrid` object at dump time:
`level_node_count`, `total_node_count`, `leaf_node_count`, the root of the
heap-linked node tree (`node_ptr`), and the SOA leaf buffer
(`node_soa_ptr`). -/
structure HState where
  level_node_count : List Nat
  total_node_count : Nat
  leaf_node_count : Nat
  root : AH
  node_soa : List NodeSOA
deriving DecidableEq

/-- The fields `Hybrid::DumpFromFile` fills from the file: per-level counts
(the height is their number), totals, the flat `Node` array read into
`node_ptr`, and the SOA leaf array. -/
structure LState where
  level_node_count : List Nat
  total_node_count : Nat
  leaf_node_count : Nat
  nodes : List NRec
  node_soa : List NodeSOA
deriving DecidableEq

/-- `Hybrid::DumpToFile` (hybrid.cpp:129-205) as the sequence of fields it
writes: the height (`level_node_count.size()`), one count per level, the
total and leaf node counts, the `Node` records in breadth-first order with
patched child offsets, and the SOA leaf buffer. -/
def dumpToFile (ns : Nat) (st : HState) : List Tok :=
  Tok.sz st.level_node_count.length ::
    (st.level_node_count.map Tok.cnt ++
      Tok.cnt st.total_node_count :: Tok.cnt st.leaf_node_count ::
        ((dumpRecs ns [st.root]).map Tok.node ++ st.node_soa.map Tok.soa))

/-- Read one `size_t` field (`fread(&height, sizeof(size_t), 1, ...)`). -/
def readSz : List Tok → Option (Nat × List Tok)
  | .sz n :: rest => some (n, rest)
  | _ => none

/-- Read one `ui` field. -/
def readCnt : List Tok → Option (Nat × List Tok)
  | .cnt n :: rest => some (n, rest)
  | _ => none

/-- Read `k` consecutive `ui` fields (the per-level node counts). -/
def readCnts : Nat → List Tok → Option (List Nat × List Tok)
  | 0, toks => some ([], toks)
  | k + 1, toks => do
      let (c, t1) ← readCnt toks
      let (cs, t2) ← readCnts k t1
      pure (c :: cs, t2)

/-- Read `k` consecutive `Node` records. -/
def readNodes : Nat → List Tok → Option (List NRec × List Tok)
  | 0, toks => some ([], toks)
  | k + 1, .node r :: rest => do
      let (rs, t2) ← readNodes k rest
      pure (r :: rs, t2)
  | _ + 1, _ => none

/-- Read `k` consecutive `Node_SOA` records. -/
def readSOAs : Nat → List Tok → Option (List NodeSOA × List Tok)
  | 0, toks => some ([], toks)
  | k + 1, .soa s :: rest => do
      let (ss, t2) ← readSOAs k rest
      pure (s :: ss, t2)
  | _ + 1, _ => none

/-- The read sequence of `Hybrid::DumpFromFile` (hybrid.cpp:98-119): height,
`height` per-level counts, total node count, leaf node count, then
`total_node_count` `Node` records and `leaf_node_count` `Node_SOA` records
in one contiguous read each. -/
def dumpFromFile (toks : List Tok) : Option LState := do
  let (h, t1) ← readSz toks
  let (lv, t2) ← readCnts h t1
  let (tot, t3) ← readCnt t2
  let (lf, t4) ← readCnt t3
  let (nds, t5) ← readNodes tot t4
  let (soas, _t6) ← readSOAs lf t5
  pure ⟨lv, tot, lf, nds, soas⟩

/-- A named-file store standing for the directory the index files live in. -/
def fileLookup (fs : List (String × List Tok)) (name : String) : Option (List Tok) :=
  ((fs.find? fun p => p.1 == name).map fun p => p.2)

/-- `Hybrid::DumpFromFile` at the `fopen` boundary (hybrid.cpp:84-92): if
the named file does not exist it returns `false` at once, leaving the
tree-owning fields (`st`, possibly still unset, hence an `Option`)
untouched; otherwise it returns `true` with the fields read from the
file. -/
def dumpFromFileFS (fs : List (String × List Tok)) (name : String)
    (st : Option LState) : Bool × Option LState :=
  match fileLookup fs name with
  | none => (false, st)
  | some toks => (true, dumpFromFile toks)

/-- The observable effect of one `Hybrid::Build` call: its return value,
the load-path fields afterwards, whether the fresh-build branch ran, and
the file store afterwards. -/
structure BuildEffect where
  ret : Bool
  loadView : Option LState
  builtFresh : Bool
  fs : List (String × List Tok)
deriving DecidableEq

/-- `Hybrid::Build` (hybrid.cpp:26-82) around the persistence boundary: if
`DumpFromFile` fails (missing file) it runs the fresh build pipeline and
dumps the result, and it returns `true` either way.  Modelled from the
spec where it leaves `src/`: the fresh pipeline (`CreateBranches`,
`AssignHilbertIndexToBranches`, `sort::Sorter::Sort`, `Top_Down`,
`CopyBranchToNodeSOA`) is not under `src/` and is abstracted as its
resulting built state `fresh`. -/
def hybridBuild (fs : List (String × List Tok)) (name : String) (ns : Nat)
    (fresh : HState) (st : Option LState) : BuildEffect :=
  let p := dumpFromFileFS fs name st
  if p.1 then { ret := true, loadView := p.2, builtFresh := false, fs := fs }
  else { ret := true, loadView := p.2, builtFresh := true,
         fs := (name, dumpToFile ns fresh) :: fs }

/-! ### Concrete instances used by the examples -/

/-- A singleton leaf under a chain of two internal nodes — the smallest tree
on which the breadth-first dump patches a non-root node's child offset. -/
def cexLeaf : AH := .leaf [⟨[(0, 1)], 1, 7⟩]

/-- Middle node of the chain; its in-memory child offset (pointer) is 555. -/
def cexMid : AH := .internal (.cons [(0, 1)] 1 555 cexLeaf .nil)

/-- Root of the chain; its in-memory child offset (pointer) is 999. -/
def cexRoot : AH := .internal (.cons [(0, 1)] 1 999 cexMid .nil)

/-- A `Hybrid` state owning the chain tree and a one-node SOA buffer. -/
def cexHState : HState := ⟨[1, 1, 1], 3, 1, cexRoot, [⟨[[(0, 1)]]⟩]⟩

/-- A query point for the traversal examples. -/
def cexPointQ : Box := [(0, 0)]

/-- A root with two children that both satisfy the descent guard for
`cexPointQ` and `visited_leafIndex = 0`. -/
def cexBothQualify : AH :=
  .internal (.cons [(0, 0)] 1 0 (.leaf [⟨[(0, 0)], 1, 0⟩])
    (.cons [(0, 0)] 2 0 (.leaf [⟨[(0, 0)], 2, 0⟩]) .nil))

/-- Leaf 0 of the degree-4, 16-point demo tree (points 0..3). -/
def demoLeaf0 : AH :=
  .leaf [⟨[(0, 0)], 1, 0⟩, ⟨[(1, 1)], 2, 0⟩, ⟨[(2, 2)], 3, 0⟩, ⟨[(3, 3)], 4, 0⟩]

/-- Leaf 1 of the demo tree (points 4..7). -/
def demoLeaf1 : AH :=
  .leaf [⟨[(4, 4)], 5, 0⟩, ⟨[(5, 5)], 6, 0⟩, ⟨[(6, 6)], 7, 0⟩, ⟨[(7, 7)], 8, 0⟩]

/-- Leaf 2 of the demo tree (points 8..11). -/
def demoLeaf2 : AH :=
  .leaf [⟨[(8, 8)], 9, 0⟩, ⟨[(9, 9)], 10, 0⟩, ⟨[(10, 10)], 11, 0⟩, ⟨[(11, 11)], 12, 0⟩]

/-- Leaf 3 of the demo tree (points 12..15). -/
def demoLeaf3 : AH :=
  .leaf [⟨[(12, 12)], 13, 0⟩, ⟨[(13, 13)], 14, 0⟩, ⟨[(14, 14)], 15, 0⟩,
    ⟨[(15, 15)], 16, 0⟩]

/-- A one-dimensional, degree-4, 16-point, 4-leaf tree. -/
def demoT : AH := .internal (
  .cons [(0, 3)] 4 0 demoLeaf0 (
  .cons [(4, 7)] 8 0 demoLeaf1 (
  .cons [(8, 11)] 12 0 demoLeaf2 (
  .cons [(12, 15)] 16 0 demoLeaf3 .nil))))

/-- The SOA leaf buffer matching `demoT`. -/
def demoSOA : List NodeSOA :=
  [⟨[[(0, 0)], [(1, 1)], [(2, 2)], [(3, 3)]]⟩,
   ⟨[[(4, 4)], [(5, 5)], [(6, 6)], [(7, 7)]]⟩,
   ⟨[[(8, 8)], [(9, 9)], [(10, 10)], [(11, 11)]]⟩,
   ⟨[[(12, 12)], [(13, 13)], [(14, 14)], [(15, 15)]]⟩]

/-- A query box overlapping exactly the first 12 of the 16 demo points. -/
def demoQ : Box := [(0, 11)]

/-! ### Basic lemmas about boxes and the traversal -/

theorem boxOverlap_of_contains (q outer inner : Box)
    (hq : q.length = outer.length) (ho : outer.length = inner.length)
    (hc : boxContains outer inner = true) (hov : boxOverlap q inner = true) :
    boxOverlap q outer = true := by
  induction q generalizing outer inner with
  | nil =>
    cases outer with
    | nil => rfl
    | cons _ _ => simp at hq
  | cons qp qrest ih =>
    cases outer with
    | nil => simp at hq
    | cons op orest =>
      cases inner with
      | nil => simp at ho
      | cons ip irest =>
        simp only [boxOverlap, boxContains, List.zip, List.zipWith, List.all_cons,
          Bool.and_eq_true, decide_eq_true_eq] at hc hov ⊢
        refine ⟨⟨?_, ?_⟩, ?_⟩
        · omega
        · omega
        · exact ih orest irest (by simpa using hq) (by simpa using ho) hc.2 hov.2

theorem leafFirst_sound (v : Int) (bs : List LBranch) :
    leafFirst v bs = 0 ∨
      (v < leafFirst v bs ∧ leafFirst v bs ∈ bs.map (fun b => b.idx)) := by
  induction bs with
  | nil => left; rfl
  | cons b rest ih =>
    by_cases h : v < b.idx
    · right
      simp [leafFirst, h]
    · rcases ih with h0 | ⟨h1, h2⟩
      · left; simpa [leafFirst, h] using h0
      · right
        refine ⟨by simpa [leafFirst, h] using h1, ?_⟩
        simp only [leafFirst, h, if_false, List.map_cons, List.mem_cons]
        right; exact h2

theorem leafIdxsA_leaf (bs : List LBranch) :
    leafIdxsA (.leaf bs) = bs.map (fun b => b.idx) := by
  simp [leafIdxsA, leafBranchesA, leavesA]

theorem leafIdxsA_internal (bs : IBr) : leafIdxsA (.internal bs) = leafIdxsI bs := by
  simp [leafIdxsA, leafIdxsI, leafBranchesA, leafBranchesI, leavesA]

theorem leafIdxsI_cons (box : Box) (idx ref : Int) (child : AH) (rest : IBr) :
    leafIdxsI (.cons box idx ref child rest) = leafIdxsA child ++ leafIdxsI rest := by
  simp [leafIdxsI, leafIdxsA, leafBranchesI, leafBranchesA, leavesI,
    List.flatten_append]

theorem leafBranchesI_cons (box : Box) (idx ref : Int) (child : AH) (rest : IBr) :
    leafBranchesI (.cons box idx ref child rest) = leafBranchesA child ++ leafBranchesI rest := by
  simp [leafBranchesI, leafBranchesA, leavesI, List.flatten_append]

theorem leafBranchesA_internal (bs : IBr) :
    leafBranchesA (.internal bs) = leafBranchesI bs := by
  simp [leafBranchesA, leafBranchesI, leavesA]

mutual
theorem travA_sound (q : Box) (v : Int) (t : AH) (hv : 0 ≤ v) :
    (traverseInternalNodes q v t).1 = 0 ∨
      (v < (traverseInternalNodes q v t).1 ∧ (traverseInternalNodes q v t).1 ∈ leafIdxsA t) := by
  cases t with
  | leaf bs =>
    rcases leafFirst_sound v bs with h | ⟨h1, h2⟩
    · left; simpa [traverseInternalNodes] using h
    · right
      constructor
      · simpa [traverseInternalNodes] using h1
      · rw [leafIdxsA_leaf]; simpa [traverseInternalNodes] using h2
  | internal bs =>
    rcases travI_sound q v bs 0 hv with h | h | ⟨h1, h2⟩
    · left; simpa [traverseInternalNodes] using h
    · left; simpa [traverseInternalNodes] using h
    · right
      rw [leafIdxsA_internal]
      exact ⟨by simpa [traverseInternalNodes] using h1, by simpa [traverseInternalNodes] using h2⟩
theorem travI_sound (q : Box) (v : Int) (bs : IBr) (acc : Int) (hv : 0 ≤ v) :
    (traverseI q v bs acc).1 = acc ∨ (traverseI q v bs acc).1 = 0 ∨
      (v < (traverseI q v bs acc).1 ∧ (traverseI q v bs acc).1 ∈ leafIdxsI bs) := by
  cases bs with
  | nil => left; rfl
  | cons box idx ref child rest =>
    by_cases hg : (decide (v < idx) && boxOverlap q box) = true
    · rcases travA_sound q v child hv with h0 | ⟨h1, h2⟩
      · have hnp : ¬ (0 < (traverseInternalNodes q v child).1) := by omega
        rcases travI_sound q v rest (traverseInternalNodes q v child).1 hv with h | h | ⟨h1, h2⟩
        · right; left
          simpa [traverseI, hg, hnp, h0] using h.trans h0
        · right; left; simpa [traverseI, hg, hnp] using h
        · right; right
          rw [leafIdxsI_cons]
          refine ⟨by simpa [traverseI, hg, hnp] using h1, ?_⟩
          simp only [List.mem_append]
          right; simpa [traverseI, hg, hnp] using h2
      · have hp : 0 < (traverseInternalNodes q v child).1 := by omega
        right; right
        rw [leafIdxsI_cons]
        refine ⟨by simpa [traverseI, hg, hp] using h1, ?_⟩
        simp only [List.mem_append]
        left; simpa [traverseI, hg, hp] using h2
    · rcases travI_sound q v rest acc hv with h | h | ⟨h1, h2⟩
      · left; simpa [traverseI, hg] using h
      · right; left; simpa [traverseI, hg] using h
      · right; right
        rw [leafIdxsI_cons]
        refine ⟨by simpa [traverseI, hg] using h1, ?_⟩
        simp only [List.mem_append]
        right; simpa [traverseI, hg] using h2
end

theorem leafBranchesA_leaf (bs : List LBranch) : leafBranchesA (.leaf bs) = bs := by
  simp [leafBranchesA, leavesA]

theorem wfI_cons_parts (d : Nat) (box : Box) (idx ref : Int) (child : AH) (rest : IBr)
    (h : wfI d (.cons box idx ref child rest) = true) :
    box.length = d ∧ wfA d child = true ∧
      (∀ j ∈ leafIdxsA child, j ≤ idx) ∧
      (∀ lb ∈ leafBranchesA child, boxContains box lb.box = true) ∧
      (∀ j ∈ leafIdxsI rest, idx < j) ∧ wfI d rest = true := by
  simp only [wfI, Bool.and_eq_true, List.all_eq_true, decide_eq_true_eq, beq_iff_eq] at h
  exact ⟨h.1.1.1.1.1, h.1.1.1.1.2, h.1.1.1.2, h.1.1.2, h.1.2, h.2⟩

mutual
theorem wfA_box_len (d : Nat) (t : AH) (h : wfA d t = true) :
    ∀ lb ∈ leafBranchesA t, lb.box.length = d := by
  cases t with
  | leaf bs =>
    rw [leafBranchesA_leaf]
    simp only [wfA, Bool.and_eq_true, List.all_eq_true, beq_iff_eq] at h
    exact h.1
  | internal bs =>
    rw [leafBranchesA_internal]
    exact wfI_box_len d bs h
theorem wfI_box_len (d : Nat) (bs : IBr) (h : wfI d bs = true) :
    ∀ lb ∈ leafBranchesI bs, lb.box.length = d := by
  cases bs with
  | nil => intro lb hlb; simp [leafBranchesI, leavesI] at hlb
  | cons box idx ref child rest =>
    obtain ⟨_, hch, _, _, _, hrest⟩ := wfI_cons_parts d box idx ref child rest h
    intro lb hlb
    rw [leafBranchesI_cons] at hlb
    rcases List.mem_append.mp hlb with h1 | h1
    · exact wfA_box_len d child hch lb h1
    · exact wfI_box_len d rest hrest lb h1
end

theorem idxSorted_tail (b : LBranch) (rest : List LBranch)
    (h : idxSorted (b :: rest) = true) : idxSorted rest = true := by
  cases rest with
  | nil => rfl
  | cons c rest' =>
    simp only [idxSorted, Bool.and_eq_true] at h
    exact h.2

theorem idxSorted_head_lt (b : LBranch) (rest : List LBranch)
    (h : idxSorted (b :: rest) = true) : ∀ lb ∈ rest, b.idx < lb.idx := by
  induction rest generalizing b with
  | nil => intro lb hlb; simp at hlb
  | cons c rest' ih =>
    simp only [idxSorted, Bool.and_eq_true, decide_eq_true_eq] at h
    intro lb hlb
    rcases List.mem_cons.mp hlb with h1 | h1
    · subst h1; exact h.1
    · exact h.1.trans (ih c h.2 lb h1)

theorem leafFirst_min (v : Int) (hv : 0 ≤ v) (bs : List LBranch) (hs : idxSorted bs = true)
    (lb : LBranch) (hlb : lb ∈ bs) (hvi : v < lb.idx) :
    leafFirst v bs ≠ 0 ∧ leafFirst v bs ≤ lb.idx := by
  induction bs with
  | nil => simp at hlb
  | cons b rest ih =>
    rcases List.mem_cons.mp hlb with h1 | h1
    · subst h1
      simp only [leafFirst, hvi, if_true]
      omega
    · by_cases h : v < b.idx
      · simp only [leafFirst, h, if_true]
        have := idxSorted_head_lt b rest hs lb h1
        omega
      · simpa [leafFirst, h] using ih (idxSorted_tail b rest hs) h1

mutual
theorem travA_complete (d : Nat) (q : Box) (v : Int) (t : AH)
    (hw : wfA d t = true) (hq : q.length = d) (hv : 0 ≤ v)
    (lb : LBranch) (hlb : lb ∈ leafBranchesA t)
    (hov : boxOverlap q lb.box = true) (hvi : v < lb.idx) :
    0 < (traverseInternalNodes q v t).1 ∧ (traverseInternalNodes q v t).1 ≤ lb.idx := by
  cases t with
  | leaf bs =>
    rw [leafBranchesA_leaf] at hlb
    have hs : idxSorted bs = true := by
      simp only [wfA, Bool.and_eq_true] at hw
      exact hw.2
    have := leafFirst_min v hv bs hs lb hlb hvi
    constructor
    · rcases leafFirst_sound v bs with h | ⟨h1, _⟩
      · exact absurd h this.1
      · simpa [traverseInternalNodes] using lt_of_le_of_lt hv h1
    · simpa [traverseInternalNodes] using this.2
  | internal bs =>
    have := travI_complete d q v bs hw hq hv lb (by rwa [leafBranchesA_internal] at hlb) hov hvi 0
    constructor
    · simpa [traverseInternalNodes] using this.1
    · simpa [traverseInternalNodes] using this.2
theorem travI_complete (d : Nat) (q : Box) (v : Int) (bs : IBr)
    (hw : wfI d bs = true) (hq : q.length = d) (hv : 0 ≤ v)
    (lb : LBranch) (hlb : lb ∈ leafBranchesI bs)
    (hov : boxOverlap q lb.box = true) (hvi : v < lb.idx) (acc : Int) :
    0 < (traverseI q v bs acc).1 ∧ (traverseI q v bs acc).1 ≤ lb.idx := by
  cases bs with
  | nil => simp [leafBranchesI, leavesI] at hlb
  | cons box idx ref child rest =>
    obtain ⟨hbl, hch, hdom, hcont, hgt, hrest⟩ := wfI_cons_parts d box idx ref child rest hw
    rw [leafBranchesI_cons] at hlb
    rcases List.mem_append.mp hlb with hin | hin
    · -- the target leaf branch lives below this branch: the guard holds
      have hidx : lb.idx ≤ idx := hdom lb.idx (by simp [leafIdxsA]; exact ⟨lb, hin, rfl⟩)
      have hbov : boxOverlap q box = true :=
        boxOverlap_of_contains q box lb.box (hq.trans hbl.symm)
          (hbl.trans (wfA_box_len d child hch lb hin).symm) (hcont lb hin) hov
      have hg : (decide (v < idx) && boxOverlap q box) = true := by
        simp [hbov]; omega
      have hc := travA_complete d q v child hch hq hv lb hin hov hvi
      have hp : 0 < (traverseInternalNodes q v child).1 := hc.1
      refine ⟨?_, ?_⟩
      · simpa [traverseI, hg, hp] using hc.1
      · simpa [traverseI, hg, hp] using hc.2
    · -- the target leaf branch lives below a later sibling
      have hlbidx : idx < lb.idx := hgt lb.idx (by simp [leafIdxsI]; exact ⟨lb, hin, rfl⟩)
      by_cases hg : (decide (v < idx) && boxOverlap q box) = true
      · rcases travA_sound q v child hv with h0 | ⟨h1, h2⟩
        · have hnp : ¬ (0 < (traverseInternalNodes q v child).1) := by omega
          have := travI_complete d q v rest hrest hq hv lb hin hov hvi
            (traverseInternalNodes q v child).1
          refine ⟨?_, ?_⟩
          · simpa [traverseI, hg, hnp] using this.1
          · simpa [traverseI, hg, hnp] using this.2
        · have hp : 0 < (traverseInternalNodes q v child).1 := by omega
          have hle : (traverseInternalNodes q v child).1 ≤ idx := by
            apply hdom
            rwa [leafIdxsA] at h2
          refine ⟨?_, ?_⟩
          · simpa [traverseI, hg, hp] using hp
          · simp only [traverseI, hg, if_true, hp]
            omega
      · have := travI_complete d q v rest hrest hq hv lb hin hov hvi acc
        refine ⟨?_, ?_⟩
        · simpa [traverseI, hg] using this.1
        · simpa [traverseI, hg] using this.2
end


theorem traverseI_cons_taken (q : Box) (v : Int) (box : Box) (idx ref : Int)
    (child : AH) (rest : IBr) (acc : Int)
    (hg : (decide (v < idx) && boxOverlap q box) = true)
    (hp : 0 < (traverseInternalNodes q v child).1) :
    traverseI q v (.cons box idx ref child rest) acc = traverseInternalNodes q v child := by
  simp only [traverseI, hg, if_true, hp]

theorem traverseI_cons_failed (q : Box) (v : Int) (box : Box) (idx ref : Int)
    (child : AH) (rest : IBr) (acc : Int)
    (hg : (decide (v < idx) && boxOverlap q box) = true)
    (hp : ¬ 0 < (traverseInternalNodes q v child).1) :
    traverseI q v (.cons box idx ref child rest) acc
      = ((traverseI q v rest (traverseInternalNodes q v child).1).1,
         (traverseInternalNodes q v child).2
           + (traverseI q v rest (traverseInternalNodes q v child).1).2) := by
  simp only [traverseI, hg, if_true, hp, if_false]

theorem traverseI_cons_skip (q : Box) (v : Int) (box : Box) (idx ref : Int)
    (child : AH) (rest : IBr) (acc : Int)
    (hg : ¬ (decide (v < idx) && boxOverlap q box) = true) :
    traverseI q v (.cons box idx ref child rest) acc = traverseI q v rest acc := by
  simp [traverseI, hg]

theorem visitAllI_cons (q : Box) (v : Int) (box : Box) (idx ref : Int)
    (child : AH) (rest : IBr) :
    visitAllI q v (.cons box idx ref child rest)
      = (if v < idx ∧ boxOverlap q box = true then visitAllA q v child else 0)
          + visitAllI q v rest := rfl

theorem visitAll_guard_true (q : Box) (v : Int) (box : Box) (idx : Int)
    (hg : (decide (v < idx) && boxOverlap q box) = true) :
    (v < idx ∧ boxOverlap q box = true) := by
  simpa [Bool.and_eq_true, decide_eq_true_eq] using hg

mutual
theorem travA_cnt (q : Box) (v : Int) (t : AH) :
    (traverseInternalNodes q v t).2 ≤ visitAllA q v t := by
  cases t with
  | leaf bs => simp [traverseInternalNodes, visitAllA]
  | internal bs =>
    have := travI_cnt q v bs 0
    simp only [traverseInternalNodes, visitAllA]
    omega
theorem travI_cnt (q : Box) (v : Int) (bs : IBr) (acc : Int) :
    (traverseI q v bs acc).2 ≤ visitAllI q v bs := by
  cases bs with
  | nil => simp [traverseI, visitAllI]
  | cons box idx ref child rest =>
    rw [visitAllI_cons]
    by_cases hg : (decide (v < idx) && boxOverlap q box) = true
    · rw [if_pos (visitAll_guard_true q v box idx hg)]
      have hca := travA_cnt q v child
      by_cases hp : 0 < (traverseInternalNodes q v child).1
      · rw [traverseI_cons_taken q v box idx ref child rest acc hg hp]
        omega
      · rw [traverseI_cons_failed q v box idx ref child rest acc hg hp]
        have := travI_cnt q v rest (traverseInternalNodes q v child).1
        simp only []
        omega
    · rw [traverseI_cons_skip q v box idx ref child rest acc hg]
      have := travI_cnt q v rest acc
      omega
end


mutual
theorem travA_zero_iff (q : Box) (v : Int) (t : AH) (hv : 0 ≤ v) :
    (traverseInternalNodes q v t).1 = 0 ↔ hasCandA q v t = false := by
  cases t with
  | leaf bs =>
    simp only [traverseInternalNodes, hasCandA]
    induction bs with
    | nil => simp [leafFirst]
    | cons b rest ih =>
      by_cases h : v < b.idx
      · have hlf : leafFirst v (b :: rest) = b.idx := by simp [leafFirst, h]
        rw [hlf]
        simp only [List.any_cons, Bool.or_eq_false_iff, decide_eq_false_iff_not]
        constructor
        · intro h0; omega
        · intro hh; exact absurd h hh.1
      · have hlf : leafFirst v (b :: rest) = leafFirst v rest := by simp [leafFirst, h]
        rw [hlf, ih]
        simp only [List.any_cons, Bool.or_eq_false_iff, decide_eq_false_iff_not]
        constructor
        · intro hh; exact ⟨h, hh⟩
        · intro hh; exact hh.2
  | internal bs =>
    have := travI_zero q v bs hv
    simpa [traverseInternalNodes, hasCandA] using this
theorem travI_zero (q : Box) (v : Int) (bs : IBr) (hv : 0 ≤ v) :
    (traverseI q v bs 0).1 = 0 ↔ hasCandI q v bs = false := by
  cases bs with
  | nil => simp [traverseI, hasCandI]
  | cons box idx ref child rest =>
    simp only [hasCandI]
    by_cases hg : (decide (v < idx) && boxOverlap q box) = true
    · by_cases hp : 0 < (traverseInternalNodes q v child).1
      · have hch : hasCandA q v child = true := by
          cases hcv : hasCandA q v child with
          | false => exact absurd ((travA_zero_iff q v child hv).mpr hcv) (by omega)
          | true => rfl
        rw [traverseI_cons_taken q v box idx ref child rest 0 hg hp]
        rw [hg, hch]
        simp only [Bool.true_and, Bool.true_or]
        constructor
        · intro h0; omega
        · intro hh; exact absurd hh (by simp)
      · have h0 : (traverseInternalNodes q v child).1 = 0 := by
          rcases travA_sound q v child hv with h | ⟨h1, _⟩
          · exact h
          · omega
        have hch : hasCandA q v child = false := (travA_zero_iff q v child hv).mp h0
        rw [traverseI_cons_failed q v box idx ref child rest 0 hg hp]
        rw [hch, h0]
        simp only [Bool.and_false, Bool.false_or]
        exact travI_zero q v rest hv
    · rw [traverseI_cons_skip q v box idx ref child rest 0 hg]
      have hgb : (decide (v < idx) && boxOverlap q box) = false := by
        cases hb : (decide (v < idx) && boxOverlap q box) with
        | false => rfl
        | true => exact absurd hb hg
      rw [hgb]
      simp only [Bool.false_and, Bool.false_or]
      exact travI_zero q v rest hv
end

/-! ### The leaf/SOA correspondence and index arithmetic -/

theorem leavesMatch_len (deg : Nat) (ls : List (List LBranch)) (soa : List NodeSOA)
    (h : leavesMatchSOA deg ls soa = true) : ls.length = soa.length := by
  simp only [leavesMatchSOA, Bool.and_eq_true, beq_iff_eq] at h
  exact h.1

theorem leavesMatch_parts (deg : Nat) (ls : List (List LBranch)) (soa : List NodeSOA)
    (h : leavesMatchSOA deg ls soa = true) (j : Nat) (hj : j < ls.length) :
    (soa.getD j default).branches = (ls.getD j []).map (fun b => b.box) ∧
      1 ≤ (ls.getD j []).length ∧ (ls.getD j []).length ≤ deg ∧
      ∀ b, b < (ls.getD j []).length →
        ((ls.getD j []).getD b default).idx = (j * deg + b + 1 : Int) := by
  simp only [leavesMatchSOA, Bool.and_eq_true, beq_iff_eq, List.all_eq_true,
    List.mem_range, decide_eq_true_eq] at h
  obtain ⟨hlen, hall⟩ := h
  obtain ⟨⟨⟨hbox, h1⟩, h2⟩, hidx⟩ := hall j hj
  exact ⟨hbox, h1, h2, fun b hb => hidx b hb⟩

theorem getD_mem_flatten (ls : List (List LBranch)) (j b : Nat)
    (hj : j < ls.length) (hb : b < (ls.getD j []).length) :
    (ls.getD j []).getD b default ∈ ls.flatten := by
  rw [List.getD_eq_getElem ls [] hj] at hb ⊢
  rw [List.getD_eq_getElem _ default hb]
  exact List.mem_flatten.mpr ⟨ls[j], List.getElem_mem hj, List.getElem_mem hb⟩

theorem mem_flatten_decomp (ls : List (List LBranch)) (lb : LBranch)
    (h : lb ∈ ls.flatten) :
    ∃ j b, ∃ hj : j < ls.length, ∃ hb : b < (ls.getD j []).length,
      (ls.getD j []).getD b default = lb := by
  obtain ⟨bsl, hbsl, hlb⟩ := List.mem_flatten.mp h
  obtain ⟨j, hj, hjeq⟩ := List.mem_iff_getElem.mp hbsl
  obtain ⟨b, hb, hbeq⟩ := List.mem_iff_getElem.mp hlb
  refine ⟨j, b, hj, ?_, ?_⟩
  · rw [List.getD_eq_getElem ls [] hj, hjeq]; exact hb
  · have h1 : ls.getD j [] = bsl := by rw [List.getD_eq_getElem ls [] hj, hjeq]
    rw [h1]
    rw [List.getD_eq_getElem _ default (h1 ▸ (by rw [h1]; exact hb))]
    exact hbeq

theorem idx_cast_form (deg j b : Nat) :
    ((j : Int) * deg + b + 1) = (((j * deg + b + 1 : Nat) : Int)) := by
  push_cast
  ring

theorem startOffset_eq (deg j b : Nat) (hdeg : 0 < deg) (hb : b < deg) :
    ((((j * deg + b + 1 : Nat) : Int)) - 1).tdiv (deg : Int) = (j : Int) := by
  have h1 : (((j * deg + b + 1 : Nat) : Int)) - 1 = ((j * deg + b : Nat) : Int) := by
    push_cast
    ring
  rw [h1]
  have h2 : ((j * deg + b : Nat) : Int).tdiv ((deg : Nat) : Int)
      = (((j * deg + b) / deg : Nat) : Int) := rfl
  rw [h2]
  have h3 : (j * deg + b) / deg = j := by
    have : j * deg + b = b + deg * j := by ring
    rw [this, Nat.add_mul_div_left b j hdeg, Nat.div_eq_of_lt hb]
    omega
  rw [h3]

theorem idx_le_bound (m deg j b : Nat) (hj : j < m) (hb1 : b + 1 ≤ deg) :
    j * deg + b + 1 ≤ m * deg := by
  have h1 : j * deg + b + 1 ≤ j * deg + deg := by omega
  have h2 : j * deg + deg = (j + 1) * deg := by ring
  have h3 : (j + 1) * deg ≤ m * deg := Nat.mul_le_mul_right deg hj
  omega

/-! ### The device kernel invocation -/

theorem soaNodeHitsCapped_eq (nt : Nat) (q : Box) (n : NodeSOA)
    (h : n.branches.length ≤ nt) : soaNodeHitsCapped nt q n = soaNodeHits q n := by
  simp only [soaNodeHitsCapped, soaNodeHits, List.take_of_length_le h]

theorem invocationHits_eq (NB nt : Nat) (soa : List NodeSOA) (q : Box) (s c : Nat)
    (hNB : 0 < NB)
    (hcnt : ∀ i, i < c → (soa.getD (s + i) default).branches.length ≤ nt) :
    invocationHits NB nt soa q s c
      = ∑ i ∈ Finset.range c, soaNodeHits q (soa.getD (s + i) default) := by
  unfold invocationHits blockHits
  rw [Finset.sum_fiberwise_of_maps_to (fun i hi => Finset.mem_range.mpr
    (Nat.mod_lt i hNB))]
  exact Finset.sum_congr rfl fun i hi =>
    soaNodeHitsCapped_eq nt q _ (hcnt i (Finset.mem_range.mp hi))

theorem sum_range_shift (f : Nat → Nat) (s a b : Nat) :
    ∑ i ∈ Finset.range (a + b), f (s + i)
      = (∑ i ∈ Finset.range a, f (s + i)) + ∑ i ∈ Finset.range b, f (s + a + i) := by
  induction b with
  | zero => simp
  | succ b ih =>
    rw [show a + (b + 1) = (a + b) + 1 from rfl, Finset.sum_range_succ,
      Finset.sum_range_succ, ih]
    have hsame : s + (a + b) = s + a + b := by omega
    rw [hsame]
    omega

theorem totalUpTo_split (q : Box) (soa : List NodeSOA) (a k : Nat) :
    totalUpTo q soa (a + k)
      = totalUpTo q soa a
          + ∑ i ∈ Finset.range k, soaNodeHits q (soa.getD (a + i) default) := by
  unfold totalUpTo
  have := sum_range_shift (fun j => soaNodeHits q (soa.getD j default)) 0 a k
  simpa using this

/-! ### The search loop -/

theorem hit_reaches (d deg : Nat) (t : AH) (soa : List NodeSOA) (q : Box)
    (W : TreeWF d deg t soa) (hq : q.length = d) (hdeg : 0 < deg)
    (e j : Nat) (hej : e ≤ j) (hjm : j < soa.length)
    (hpos : 0 < soaNodeHits q (soa.getD j default)) :
    0 < (traverseInternalNodes q ((e * deg : Nat) : Int) t).1 ∧
      (traverseInternalNodes q ((e * deg : Nat) : Int) t).1
        ≤ (((j + 1) * deg : Nat) : Int) := by
  obtain ⟨W1, W2⟩ := W
  have hlen := leavesMatch_len deg (leavesA t) soa W2
  have hjls : j < (leavesA t).length := by omega
  obtain ⟨hbox, hge1, hled, hidx⟩ := leavesMatch_parts deg (leavesA t) soa W2 j hjls
  -- extract an overlapping branch of leaf node j
  have hex : ∃ bx ∈ (soa.getD j default).branches, boxOverlap q bx = true := by
    unfold soaNodeHits at hpos
    have : (soa.getD j default).branches.filter (fun b => boxOverlap q b) ≠ [] := by
      intro hnil
      rw [hnil] at hpos
      simp at hpos
    obtain ⟨bx, hbx⟩ := List.exists_mem_of_ne_nil _ this
    exact ⟨bx, (List.mem_filter.mp hbx).1, (List.mem_filter.mp hbx).2⟩
  obtain ⟨bx, hbxmem, hbxov⟩ := hex
  rw [hbox] at hbxmem
  obtain ⟨lb, hlbmem, hlbbox⟩ := List.mem_map.mp hbxmem
  obtain ⟨b, hb, hbeq⟩ := List.mem_iff_getElem.mp hlbmem
  have hlbidx : lb.idx = ((j : Int) * deg + b + 1) := by
    have := hidx b hb
    rw [List.getD_eq_getElem _ default hb, hbeq] at this
    exact this
  have hlbA : lb ∈ leafBranchesA t := by
    unfold leafBranchesA
    refine List.mem_flatten.mpr ⟨(leavesA t).getD j [], ?_, hlbmem⟩
    rw [List.getD_eq_getElem (leavesA t) [] hjls]
    exact List.getElem_mem hjls
  have hvcast : (0 : Int) ≤ ((e * deg : Nat) : Int) := Int.ofNat_nonneg _
  have hvi : ((e * deg : Nat) : Int) < lb.idx := by
    rw [hlbidx, idx_cast_form]
    have h1 : e * deg < j * deg + b + 1 := by
      have : e * deg ≤ j * deg := Nat.mul_le_mul_right deg hej
      omega
    exact_mod_cast h1
  have hov : boxOverlap q lb.box = true := by rw [hlbbox]; exact hbxov
  have hc := travA_complete d q ((e * deg : Nat) : Int) t W1 hq hvcast lb hlbA hov hvi
  refine ⟨hc.1, ?_⟩
  have hle : lb.idx ≤ (((j + 1) * deg : Nat) : Int) := by
    rw [hlbidx, idx_cast_form]
    have h1 : j * deg + b + 1 ≤ (j + 1) * deg :=
      idx_le_bound (j + 1) deg j b (Nat.lt_succ_self j) (by omega)
    exact_mod_cast h1
  exact hc.2.trans hle

theorem clipChunk_eval (m j0 ch : Nat) (hj0m : j0 < m) (hm : m < 2 ^ 32)
    (hch : 0 < ch) :
    0 < clipChunk m ((j0 : Nat) : Int) ch ∧
      j0 + clipChunk m ((j0 : Nat) : Int) ch ≤ m ∧
      clipChunk m ((j0 : Nat) : Int) ch ≤ ch := by
  unfold clipChunk
  by_cases hcond : (((j0 : Nat) : Int) + ch : Int) > (m : Int)
  · rw [if_pos hcond]
    have hnat : m < j0 + ch := by exact_mod_cast hcond
    have hsub : ((m : Int) - ((j0 : Nat) : Int)) = ((m - j0 : Nat) : Int) := by
      omega
    rw [hsub]
    have hlt : ((m - j0 : Nat) : Int) < 2 ^ 32 := by
      have h1 : m - j0 < 2 ^ 32 := by omega
      exact_mod_cast h1
    rw [Int.emod_eq_of_lt (Int.ofNat_nonneg _) hlt]
    rw [Int.toNat_natCast]
    omega
  · rw [if_neg hcond]
    have hnat : j0 + ch ≤ m := by
      have h1 : (((j0 : Nat) : Int) + ch : Int) ≤ (m : Int) := by omega
      exact_mod_cast h1
    omega

theorem searchJumps_succ_stop (NB nt deg : Nat) (t : AH) (soa : List NodeSOA)
    (q : Box) (fuel : Nat) (st : SearchState)
    (hr : (traverseInternalNodes q st.visited t).1 = 0) :
    searchJumps NB nt deg t soa q (fuel + 1) st = st := by
  simp only [searchJumps, hr, if_pos]

theorem searchJumps_succ_go (NB nt deg : Nat) (t : AH) (soa : List NodeSOA)
    (q : Box) (fuel : Nat) (st : SearchState)
    (hr : (traverseInternalNodes q st.visited t).1 ≠ 0) :
    searchJumps NB nt deg t soa q (fuel + 1) st
      = searchJumps NB nt deg t soa q fuel
          { visited := ((((traverseInternalNodes q st.visited t).1 - 1).tdiv deg)
              + clipChunk soa.length
                  (((traverseInternalNodes q st.visited t).1 - 1).tdiv deg) st.chunk) * deg,
            chunk := clipChunk soa.length
              (((traverseInternalNodes q st.visited t).1 - 1).tdiv deg) st.chunk,
            hits := st.hits + invocationHits NB nt soa q
              ((((traverseInternalNodes q st.visited t).1 - 1).tdiv deg)).toNat
              (clipChunk soa.length
                (((traverseInternalNodes q st.visited t).1 - 1).tdiv deg) st.chunk) } := by
  simp only [searchJumps, hr, if_neg, if_false]

theorem searchJumps_stop_mk (NB nt deg : Nat) (t : AH) (soa : List NodeSOA)
    (q : Box) (fuel : Nat) (v : Int) (ch h : Nat)
    (hr : (traverseInternalNodes q v t).1 = 0) :
    searchJumps NB nt deg t soa q (fuel + 1) ⟨v, ch, h⟩ = ⟨v, ch, h⟩ :=
  searchJumps_succ_stop NB nt deg t soa q fuel ⟨v, ch, h⟩ hr

theorem searchJumps_go_mk (NB nt deg : Nat) (t : AH) (soa : List NodeSOA)
    (q : Box) (fuel : Nat) (v : Int) (ch h : Nat)
    (hr : (traverseInternalNodes q v t).1 ≠ 0) :
    searchJumps NB nt deg t soa q (fuel + 1) ⟨v, ch, h⟩
      = searchJumps NB nt deg t soa q fuel
          ⟨((((traverseInternalNodes q v t).1 - 1).tdiv deg)
              + clipChunk soa.length
                  (((traverseInternalNodes q v t).1 - 1).tdiv deg) ch) * deg,
            clipChunk soa.length (((traverseInternalNodes q v t).1 - 1).tdiv deg) ch,
            h + invocationHits NB nt soa q
              ((((traverseInternalNodes q v t).1 - 1).tdiv deg)).toNat
              (clipChunk soa.length
                (((traverseInternalNodes q v t).1 - 1).tdiv deg) ch)⟩ :=
  searchJumps_succ_go NB nt deg t soa q fuel ⟨v, ch, h⟩ hr

theorem searchJumps_invariant (d deg NB nt : Nat) (t : AH) (soa : List NodeSOA)
    (q : Box) (W : TreeWF d deg t soa) (hq : q.length = d) (hdeg : 0 < deg)
    (hNB : 0 < NB) (hnt : deg ≤ nt) (hm : soa.length < 2 ^ 32) :
    ∀ fuel e ch, 0 < ch → e ≤ soa.length → soa.length + 1 - e ≤ fuel →
      (searchJumps NB nt deg t soa q fuel
          ⟨((e * deg : Nat) : Int), ch, totalUpTo q soa e⟩).hits
        = totalUpTo q soa soa.length := by
  intro fuel
  induction fuel with
  | zero =>
    intro e ch h1 h2 h3
    exfalso
    omega
  | succ fuel ih =>
    intro e ch hch he hfuel
    by_cases hr : (traverseInternalNodes q ((e * deg : Nat) : Int) t).1 = 0
    · rw [searchJumps_stop_mk NB nt deg t soa q fuel _ _ _ hr]
      have hzero : ∀ i, i < soa.length - e →
          soaNodeHits q (soa.getD (e + i) default) = 0 := by
        intro i hi
        by_contra hne
        have hpos : 0 < soaNodeHits q (soa.getD (e + i) default) :=
          Nat.pos_of_ne_zero hne
        have := hit_reaches d deg t soa q W hq hdeg e (e + i) (by omega)
          (by omega) hpos
        omega
      have hsplit := totalUpTo_split q soa e (soa.length - e)
      have hse : e + (soa.length - e) = soa.length := by omega
      rw [hse] at hsplit
      have hzsum : ∑ i ∈ Finset.range (soa.length - e),
          soaNodeHits q (soa.getD (e + i) default) = 0 :=
        Finset.sum_eq_zero fun i hi => hzero i (Finset.mem_range.mp hi)
      show totalUpTo q soa e = totalUpTo q soa soa.length
      omega
    · rcases travA_sound q ((e * deg : Nat) : Int) t (Int.ofNat_nonneg _)
        with h0 | ⟨hvr, hmem⟩
      · exact absurd h0 hr
      unfold leafIdxsA at hmem
      obtain ⟨lb, hlbF, hlbeq⟩ := List.mem_map.mp hmem
      obtain ⟨j0, b, hj0, hb, hgetd⟩ := mem_flatten_decomp (leavesA t) lb hlbF
      have hlen := leavesMatch_len deg (leavesA t) soa W.2
      obtain ⟨hbox, hge1, hled, hidx⟩ :=
        leavesMatch_parts deg (leavesA t) soa W.2 j0 hj0
      have hbd : b < deg := by omega
      have hr_eq : (traverseInternalNodes q ((e * deg : Nat) : Int) t).1
          = ((j0 * deg + b + 1 : Nat) : Int) := by
        rw [← hlbeq, ← hgetd, hidx b hb, idx_cast_form]
      have hj0m : j0 < soa.length := by omega
      have hej0 : e ≤ j0 := by
        have h1 : ((e * deg : Nat) : Int) < ((j0 * deg + b + 1 : Nat) : Int) := by
          rw [← hr_eq]
          exact hvr
        have h2 : e * deg < j0 * deg + b + 1 := by exact_mod_cast h1
        have h3 : e * deg < (j0 + 1) * deg := by
          have h4 : (j0 + 1) * deg = j0 * deg + deg := by ring
          omega
        have := Nat.lt_of_mul_lt_mul_right h3
        omega
      have hstart : ((traverseInternalNodes q ((e * deg : Nat) : Int) t).1 - 1).tdiv deg
          = ((j0 : Nat) : Int) := by
        rw [hr_eq]
        exact startOffset_eq deg j0 b hdeg hbd
      obtain ⟨hc1, hc2, hc3⟩ := clipChunk_eval soa.length j0 ch hj0m hm hch
      rw [searchJumps_go_mk NB nt deg t soa q fuel _ _ _ hr, hstart,
        Int.toNat_natCast]
      have hvis : (((j0 : Nat) : Int)
            + (clipChunk soa.length ((j0 : Nat) : Int) ch : Nat)) * deg
          = (((j0 + clipChunk soa.length ((j0 : Nat) : Int) ch) * deg : Nat) : Int) := by
        push_cast
        ring
      have hcnt : ∀ i, i < clipChunk soa.length ((j0 : Nat) : Int) ch →
          (soa.getD (j0 + i) default).branches.length ≤ nt := by
        intro i hi
        have hji : j0 + i < soa.length := by omega
        have hjils : j0 + i < (leavesA t).length := by omega
        obtain ⟨hbox2, _, hled2, _⟩ :=
          leavesMatch_parts deg (leavesA t) soa W.2 (j0 + i) hjils
        rw [hbox2, List.length_map]
        omega
      rw [invocationHits_eq NB nt soa q j0 _ hNB hcnt]
      have hskip : ∀ i, i < j0 - e → soaNodeHits q (soa.getD (e + i) default) = 0 := by
        intro i hi
        by_contra hne
        have hpos : 0 < soaNodeHits q (soa.getD (e + i) default) :=
          Nat.pos_of_ne_zero hne
        have hre := hit_reaches d deg t soa q W hq hdeg e (e + i) (by omega)
          (by omega) hpos
        have hub : ((j0 * deg + b + 1 : Nat) : Int) ≤ (((e + i + 1) * deg : Nat) : Int) := by
          rw [← hr_eq]
          exact hre.2
        have hub2 : j0 * deg + b + 1 ≤ (e + i + 1) * deg := by exact_mod_cast hub
        have hmul : (e + i + 1) * deg ≤ j0 * deg :=
          Nat.mul_le_mul_right deg (by omega)
        omega
      have hhits : totalUpTo q soa e
            + ∑ i ∈ Finset.range (clipChunk soa.length ((j0 : Nat) : Int) ch),
                soaNodeHits q (soa.getD (j0 + i) default)
          = totalUpTo q soa (j0 + clipChunk soa.length ((j0 : Nat) : Int) ch) := by
        rw [totalUpTo_split q soa j0 _]
        have hj0split := totalUpTo_split q soa e (j0 - e)
        have hse : e + (j0 - e) = j0 := by omega
        rw [hse] at hj0split
        have hzsum : ∑ i ∈ Finset.range (j0 - e),
            soaNodeHits q (soa.getD (e + i) default) = 0 :=
          Finset.sum_eq_zero fun i hi => hskip i (Finset.mem_range.mp hi)
        omega
      rw [hvis, hhits]
      exact ih (j0 + clipChunk soa.length ((j0 : Nat) : Int) ch)
        (clipChunk soa.length ((j0 : Nat) : Int) ch) hc1 hc2 (by omega)

/-! ### The CPU brute-force scan -/

theorem bruteRangesGo_len (k c s e : Nat) : (bruteRangesGo k c s e).length = k := by
  induction k generalizing s e with
  | zero => rfl
  | succ k ih => simp [bruteRangesGo, ih]

theorem bruteRangesGo_sum (f : Nat → Nat) :
    ∀ k c s e, s ≤ e →
      ((bruteRangesGo (k + 1) c s e).map fun p =>
          ∑ i ∈ Finset.range (p.2 - p.1), f (p.1 + i)).sum
        = ∑ i ∈ Finset.range (e + k * c - s), f (s + i) := by
  intro k
  induction k with
  | zero =>
    intro c s e hse
    simp only [bruteRangesGo, List.map_cons, List.map_nil, List.sum_cons,
      List.sum_nil, Nat.add_zero, Nat.zero_mul]
  | succ k ih =>
    intro c s e hse
    have hstep : bruteRangesGo (k + 2) c s e = (s, e) :: bruteRangesGo (k + 1) c e (e + c) :=
      rfl
    rw [hstep, List.map_cons, List.sum_cons, ih c e (e + c) (by omega)]
    have h1 : e + c + k * c - e = c + k * c := by omega
    rw [h1]
    have h2 : e + (k + 1) * c - s = (e - s) + (c + k * c) := by
      have h3 : (k + 1) * c = k * c + c := by ring
      omega
    rw [h2, sum_range_shift f s (e - s) (c + k * c)]
    have h4 : s + (e - s) = e := by omega
    rw [h4]

theorem bruteForce_zero_init (q : Box) (soa : List NodeSOA) (ntc : Nat)
    (hntc : 0 < ntc) :
    bruteForceTotalHits q soa ntc (fun i => 0) = totalUpTo q soa soa.length := by
  obtain ⟨k, rfl⟩ : ∃ k, ntc = k + 1 := ⟨ntc - 1, by omega⟩
  unfold bruteForceTotalHits
  have hlen : (bruteRanges soa.length (k + 1)).length ≤ (List.range (k + 1)).length := by
    rw [List.length_range]
    unfold bruteRanges
    rw [bruteRangesGo_len]
  have hzip : ((bruteRanges soa.length (k + 1)).zip (List.range (k + 1))).map
        (fun p => (fun i => (0 : Nat)) p.2 + ∑ i ∈ Finset.range (p.1.2 - p.1.1),
          soaNodeHits q (soa.getD (p.1.1 + i) default))
      = (bruteRanges soa.length (k + 1)).map
        (fun p => ∑ i ∈ Finset.range (p.2 - p.1),
          soaNodeHits q (soa.getD (p.1 + i) default)) := by
    have h1 : ((bruteRanges soa.length (k + 1)).zip (List.range (k + 1))).map
          (fun p => (fun i => (0 : Nat)) p.2 + ∑ i ∈ Finset.range (p.1.2 - p.1.1),
            soaNodeHits q (soa.getD (p.1.1 + i) default))
        = (((bruteRanges soa.length (k + 1)).zip (List.range (k + 1))).map
            Prod.fst).map
          (fun p => ∑ i ∈ Finset.range (p.2 - p.1),
            soaNodeHits q (soa.getD (p.1 + i) default)) := by
      rw [List.map_map]
      exact List.map_congr_left fun p hp => by simp
    rw [h1, List.map_fst_zip _ _ hlen]
  rw [hzip]
  unfold bruteRanges
  rw [bruteRangesGo_sum (fun j => soaNodeHits q (soa.getD j default)) k
    (soa.length / (k + 1)) 0 (soa.length / (k + 1) + soa.length % (k + 1))
    (Nat.zero_le _)]
  have hdm : soa.length / (k + 1) + soa.length % (k + 1) + k * (soa.length / (k + 1)) - 0
      = soa.length := by
    have h1 := Nat.div_add_mod soa.length (k + 1)
    have h2 : (k + 1) * (soa.length / (k + 1))
        = k * (soa.length / (k + 1)) + soa.length / (k + 1) := by ring
    omega
  rw [hdm]
  unfold totalUpTo
  exact Finset.sum_congr rfl fun i hi => by rw [Nat.zero_add]

/-- C1: for a well-formed built tree, the aggregate hit count of the device
leaf-scan path — `global_ParallelScanning_Leafnodes` summed over all blocks,
accumulated over all jumps of one query in `Hybrid::Search` — equals the hit
count of `Hybrid::BruteForceSearchOnCPU` over the same `Node_SOA` buffer
*provided* the per-thread accumulators `thread_hit[i]` start at zero (the
source never initializes them; see the claim's record for the divergence). -/
theorem device_scan_equals_bruteforce_zero_init
    (d deg NB nt ntc fuel ch0 : Nat) (t : AH) (soa : List NodeSOA) (q : Box)
    (W : TreeWF d deg t soa) (hq : q.length = d) (hdeg : 0 < deg) (hNB : 0 < NB)
    (hnt : deg ≤ nt) (hntc : 0 < ntc) (hch : 0 < ch0) (hm : soa.length < 2 ^ 32)
    (hfuel : soa.length + 1 ≤ fuel) :
    (searchJumps NB nt deg t soa q fuel ⟨0, ch0, 0⟩).hits
      = bruteForceTotalHits q soa ntc (fun i => 0) := by
  have h1 := searchJumps_invariant d deg NB nt t soa q W hq hdeg hNB hnt hm
    fuel 0 ch0 hch (by omega) (by omega)
  have h2 : ((0 * deg : Nat) : Int) = 0 := by simp
  have h3 : totalUpTo q soa 0 = 0 := by simp [totalUpTo]
  rw [h2, h3] at h1
  rw [h1, bruteForce_zero_init q soa ntc hntc]

theorem trav_decomp (d deg : Nat) (t : AH) (soa : List NodeSOA) (q : Box)
    (W : TreeWF d deg t soa) (v : Int) (hv : 0 ≤ v)
    (hr : (traverseInternalNodes q v t).1 ≠ 0) :
    ∃ j0 b, j0 < soa.length ∧ b < deg ∧
      (traverseInternalNodes q v t).1 = ((j0 * deg + b + 1 : Nat) : Int) ∧
      v < (traverseInternalNodes q v t).1 := by
  rcases travA_sound q v t hv with h0 | ⟨hvr, hmem⟩
  · exact absurd h0 hr
  unfold leafIdxsA at hmem
  obtain ⟨lb, hlbF, hlbeq⟩ := List.mem_map.mp hmem
  obtain ⟨j0, b, hj0, hb, hgetd⟩ := mem_flatten_decomp (leavesA t) lb hlbF
  have hlen := leavesMatch_len deg (leavesA t) soa W.2
  obtain ⟨hbox, hge1, hled, hidx⟩ := leavesMatch_parts deg (leavesA t) soa W.2 j0 hj0
  refine ⟨j0, b, by omega, by omega, ?_, hvr⟩
  rw [← hlbeq, ← hgetd, hidx b hb, idx_cast_form]

theorem clipChunk_le (m j0 ch : Nat) (hj0m : j0 < m) (hm : m < 2 ^ 32) :
    clipChunk m ((j0 : Nat) : Int) ch ≤ ch := by
  unfold clipChunk
  by_cases hcond : (((j0 : Nat) : Int) + ch : Int) > (m : Int)
  · rw [if_pos hcond]
    have hnat : m < j0 + ch := by exact_mod_cast hcond
    have hsub : ((m : Int) - ((j0 : Nat) : Int)) = ((m - j0 : Nat) : Int) := by
      omega
    rw [hsub]
    have hlt : ((m - j0 : Nat) : Int) < 2 ^ 32 := by
      have h1 : m - j0 < 2 ^ 32 := by omega
      exact_mod_cast h1
    rw [Int.emod_eq_of_lt (Int.ofNat_nonneg _) hlt, Int.toNat_natCast]
    omega
  · rw [if_neg hcond]

theorem searchJumps_chunk_mono (d deg NB nt : Nat) (t : AH) (soa : List NodeSOA)
    (W : TreeWF d deg t soa) (hdeg : 0 < deg) (hm : soa.length < 2 ^ 32) :
    ∀ (q : Box) (fuel : Nat) (st : SearchState), 0 ≤ st.visited →
      (searchJumps NB nt deg t soa q fuel st).chunk ≤ st.chunk := by
  intro q fuel
  induction fuel with
  | zero =>
    intro st hvst
    simp [searchJumps]
  | succ fuel ih =>
    intro st hvst
    obtain ⟨v, ch, h⟩ := st
    by_cases hr : (traverseInternalNodes q v t).1 = 0
    · rw [searchJumps_stop_mk NB nt deg t soa q fuel v ch h hr]
    · obtain ⟨j0, b, hj0, hbd, hreq, hvlt⟩ := trav_decomp d deg t soa q W v hvst hr
      have hstart : ((traverseInternalNodes q v t).1 - 1).tdiv deg
          = ((j0 : Nat) : Int) := by
        rw [hreq]
        exact startOffset_eq deg j0 b hdeg hbd
      rw [searchJumps_go_mk NB nt deg t soa q fuel v ch h hr, hstart]
      have hle := clipChunk_le soa.length j0 ch hj0 hm
      have hrec := ih ⟨(((j0 : Nat) : Int)
          + (clipChunk soa.length ((j0 : Nat) : Int) ch : Nat)) * deg,
        clipChunk soa.length ((j0 : Nat) : Int) ch,
        h + invocationHits NB nt soa q j0
          (clipChunk soa.length ((j0 : Nat) : Int) ch)⟩ (by positivity)
      rw [Int.toNat_natCast]
      exact le_trans hrec hle

theorem searchQueries_chunk_mono (d deg NB nt : Nat) (t : AH) (soa : List NodeSOA)
    (W : TreeWF d deg t soa) (hdeg : 0 < deg) (hm : soa.length < 2 ^ 32) :
    ∀ (qs : List Box) (ch h : Nat),
      (searchQueries NB nt deg t soa qs ch h).2 ≤ ch := by
  intro qs
  induction qs with
  | nil =>
    intro ch h
    simp [searchQueries]
  | cons q qs ih =>
    intro ch h
    simp only [searchQueries]
    exact le_trans (ih _ _)
      (searchJumps_chunk_mono d deg NB nt t soa W hdeg hm q (soa.length + 1)
        ⟨0, ch, h⟩ (le_refl 0))

/-- C7: within one `Hybrid::Search` call the `chunk_size` member is never
increased: every jump's clipped value is at most the incoming value, so the
chunk after any number of jumps is at most the chunk before, and the final
chunk after any sequence of queries — which thread the field through with
no reset between queries — is at most the initial one. -/
theorem chunk_size_never_increases (d deg NB nt : Nat) (t : AH)
    (soa : List NodeSOA) (W : TreeWF d deg t soa) (hdeg : 0 < deg)
    (hm : soa.length < 2 ^ 32) :
    (∀ (q : Box) (fuel : Nat) (st : SearchState), 0 ≤ st.visited →
        (searchJumps NB nt deg t soa q fuel st).chunk ≤ st.chunk) ∧
      ∀ (qs : List Box) (ch h : Nat),
        (searchQueries NB nt deg t soa qs ch h).2 ≤ ch :=
  ⟨searchJumps_chunk_mono d deg NB nt t soa W hdeg hm,
    searchQueries_chunk_mono d deg NB nt t soa W hdeg hm⟩

/-- C10: leaf branch indices of a well-formed tree are 1-based, so the
sentinel `0` is never a valid branch index; and whenever
`TraverseInternalNodes` returns a nonzero `start_node_index`, the derived
leaf offset `(start_node_index - 1) / degree` is strictly below
`leaf_node_count`, so the clipped chunk `leaf_node_count - start_node_offset`
is positive. -/
theorem traversal_result_within_leaf_buffer (d deg : Nat) (t : AH)
    (soa : List NodeSOA) (q : Box) (v : Int) (W : TreeWF d deg t soa)
    (hdeg : 0 < deg) (hv : 0 ≤ v) :
    (∀ lb ∈ leafBranchesA t, 1 ≤ lb.idx) ∧
      ((traverseInternalNodes q v t).1 ≠ 0 →
        ((((traverseInternalNodes q v t).1 - 1).tdiv deg)).toNat < soa.length ∧
          0 < soa.length - ((((traverseInternalNodes q v t).1 - 1).tdiv deg)).toNat ∧
          1 ≤ (traverseInternalNodes q v t).1) := by
  constructor
  · intro lb hlb
    unfold leafBranchesA at hlb
    obtain ⟨j0, b, hj0, hb, hgetd⟩ := mem_flatten_decomp (leavesA t) lb hlb
    obtain ⟨_, _, _, hidx⟩ := leavesMatch_parts deg (leavesA t) soa W.2 j0 hj0
    have := hidx b hb
    rw [hgetd] at this
    rw [this]
    have hnn : (0 : Int) ≤ (j0 : Int) * deg + b := by positivity
    omega
  · intro hr
    obtain ⟨j0, b, hj0, hbd, hreq, hvlt⟩ := trav_decomp d deg t soa q W v hv hr
    have hstart : ((traverseInternalNodes q v t).1 - 1).tdiv deg
        = ((j0 : Nat) : Int) := by
      rw [hreq]
      exact startOffset_eq deg j0 b hdeg hbd
    rw [hstart, Int.toNat_natCast]
    refine ⟨hj0, by omega, ?_⟩
    rw [hreq]
    have h1 : 1 ≤ j0 * deg + b + 1 := by omega
    exact_mod_cast h1

/-- C6: after the chunk-size adjustment of `Hybrid::Search`, the scanned
range of every jump satisfies `start_node_offset + chunk_size ≤
leaf_node_count`, so the device scan never evaluates a leaf node at or
beyond index `leaf_node_count`. -/
theorem chunk_clip_within_leaf_buffer (d deg : Nat) (t : AH)
    (soa : List NodeSOA) (q : Box) (v : Int) (ch : Nat)
    (W : TreeWF d deg t soa) (hdeg : 0 < deg) (hv : 0 ≤ v) (hch : 0 < ch)
    (hm : soa.length < 2 ^ 32) (hr : (traverseInternalNodes q v t).1 ≠ 0) :
    ((((traverseInternalNodes q v t).1 - 1).tdiv deg)).toNat
        + clipChunk soa.length (((traverseInternalNodes q v t).1 - 1).tdiv deg) ch
      ≤ soa.length ∧
      ∀ i < clipChunk soa.length (((traverseInternalNodes q v t).1 - 1).tdiv deg) ch,
        ((((traverseInternalNodes q v t).1 - 1).tdiv deg)).toNat + i < soa.length := by
  obtain ⟨j0, b, hj0, hbd, hreq, hvlt⟩ := trav_decomp d deg t soa q W v hv hr
  have hstart : ((traverseInternalNodes q v t).1 - 1).tdiv deg
      = ((j0 : Nat) : Int) := by
    rw [hreq]
    exact startOffset_eq deg j0 b hdeg hbd
  rw [hstart, Int.toNat_natCast]
  obtain ⟨hc1, hc2, hc3⟩ := clipChunk_eval soa.length j0 ch hj0 hm hch
  exact ⟨hc2, fun i hi => by omega⟩

theorem leafFirst_split (v : Int) (bs : List LBranch) :
    (leafFirst v bs = 0 ∧ ∀ b ∈ bs, b.idx ≤ v) ∨
      ∃ pre b post, bs = pre ++ b :: post ∧ (∀ b2 ∈ pre, b2.idx ≤ v) ∧
        v < b.idx ∧ leafFirst v bs = b.idx := by
  induction bs with
  | nil =>
    left
    exact ⟨rfl, fun b hb => absurd hb (List.not_mem_nil b)⟩
  | cons b rest ih =>
    by_cases h : v < b.idx
    · right
      exact ⟨[], b, rest, rfl, fun b2 hb2 => absurd hb2 (List.not_mem_nil b2),
        h, by simp [leafFirst, h]⟩
    · rcases ih with ⟨h0, hall⟩ | ⟨pre, b1, post, heq, hpre, hlt, hval⟩
      · left
        refine ⟨by simpa [leafFirst, h] using h0, ?_⟩
        intro b2 hb2
        rcases List.mem_cons.mp hb2 with h1 | h1
        · subst h1; omega
        · exact hall b2 h1
      · right
        refine ⟨b :: pre, b1, post, by rw [heq, List.cons_append], ?_, hlt,
          by simpa [leafFirst, h] using hval⟩
        intro b2 hb2
        rcases List.mem_cons.mp hb2 with h1 | h1
        · subst h1; omega
        · exact hpre b2 h1

/-- C5 (amended): for `visited_leafIndex ≥ 0`, `TraverseInternalNodes`
returns the sentinel `0` iff no leaf branch with index above
`visited_leafIndex` is reachable through internal branches satisfying the
descent guard (index above `visited_leafIndex` and box overlapping the
query); at a leaf node it returns the index of the first branch exceeding
`visited_leafIndex`; and it descends *only* into children satisfying the
guard — its node visit count never exceeds the count of a traversal that
descended into every guarded child (it can be strictly smaller, because the
branch loop breaks at the first descent returning a positive index). -/
theorem traversal_guard_characterization (q : Box) (v : Int) (t : AH)
    (hv : 0 ≤ v) :
    ((traverseInternalNodes q v t).1 = 0 ↔ hasCandA q v t = false) ∧
      (∀ bs : List LBranch,
        ((traverseInternalNodes q v (.leaf bs)).1 = 0 ∧ ∀ b ∈ bs, b.idx ≤ v) ∨
          ∃ pre b post, bs = pre ++ b :: post ∧ (∀ b2 ∈ pre, b2.idx ≤ v) ∧
            v < b.idx ∧ (traverseInternalNodes q v (.leaf bs)).1 = b.idx) ∧
      (traverseInternalNodes q v t).2 ≤ visitAllA q v t := by
  refine ⟨travA_zero_iff q v t hv, ?_, travA_cnt q v t⟩
  intro bs
  have := leafFirst_split v bs
  simpa [traverseInternalNodes] using this

/-! ### The breadth-first dump -/

theorem sizeA_pos (n : AH) : 1 ≤ sizeA n := by
  cases n with
  | leaf bs => simp [sizeA]
  | internal bs => simp [sizeA]

theorem sizeQ_cons (n : AH) (rest : List AH) :
    sizeQ (n :: rest) = sizeA n + sizeQ rest := by
  simp [sizeQ]

theorem sizeQ_append (a b : List AH) : sizeQ (a ++ b) = sizeQ a + sizeQ b := by
  simp [sizeQ]

theorem sizeQ_childrenI (bs : IBr) : sizeQ (childrenI bs) = sizeI bs := by
  cases bs with
  | nil => rfl
  | cons box idx ref child rest =>
    have := sizeQ_childrenI rest
    simp only [childrenI, sizeQ_cons, sizeI, this]

theorem sizeQ_step (n : AH) (rest : List AH) :
    sizeQ (rest ++ childrenOf n) + 1 = sizeQ (n :: rest) := by
  cases n with
  | leaf bs =>
    simp only [childrenOf, sizeQ_append, sizeQ_cons, sizeA]
    simp [sizeQ]
    omega
  | internal bs =>
    simp only [childrenOf, sizeQ_append, sizeQ_cons, sizeA, sizeQ_childrenI]
    omega

theorem bfsQF_fuel (fuel : Nat) : ∀ (fuel' : Nat) (Q : List AH),
    sizeQ Q ≤ fuel → sizeQ Q ≤ fuel' → bfsQF fuel Q = bfsQF fuel' Q := by
  induction fuel with
  | zero =>
    intro fuel' Q h h'
    cases Q with
    | nil => cases fuel' <;> rfl
    | cons n rest =>
      exfalso
      rw [sizeQ_cons] at h
      have := sizeA_pos n
      omega
  | succ fuel ih =>
    intro fuel' Q h h'
    cases Q with
    | nil => cases fuel' <;> rfl
    | cons n rest =>
      have hstep := sizeQ_step n rest
      obtain ⟨f2, rfl⟩ : ∃ f2, fuel' = f2 + 1 := by
        have h1 : 1 ≤ sizeQ (n :: rest) := by
          rw [sizeQ_cons]
          have := sizeA_pos n
          omega
        exact ⟨fuel' - 1, by omega⟩
      show n :: bfsQF fuel (rest ++ childrenOf n) = n :: bfsQF f2 (rest ++ childrenOf n)
      congr 1
      exact ih f2 (rest ++ childrenOf n) (by omega) (by omega)

theorem bfsQ_cons (n : AH) (rest : List AH) :
    bfsQ (n :: rest) = n :: bfsQ (rest ++ childrenOf n) := by
  unfold bfsQ
  have h1 : sizeQ (n :: rest) = sizeQ (rest ++ childrenOf n) + 1 :=
    (sizeQ_step n rest).symm
  rw [h1]
  rfl

theorem dumpPassF_fuel (ns : Nat) (fuel : Nat) : ∀ (fuel' : Nat) (Q : List AH),
    sizeQ Q ≤ fuel → sizeQ Q ≤ fuel' → dumpPassF ns fuel Q = dumpPassF ns fuel' Q := by
  induction fuel with
  | zero =>
    intro fuel' Q h h'
    cases Q with
    | nil => cases fuel' <;> rfl
    | cons n rest =>
      exfalso
      rw [sizeQ_cons] at h
      have := sizeA_pos n
      omega
  | succ fuel ih =>
    intro fuel' Q h h'
    cases Q with
    | nil => cases fuel' <;> rfl
    | cons n rest =>
      have hstep := sizeQ_step n rest
      obtain ⟨f2, rfl⟩ : ∃ f2, fuel' = f2 + 1 := by
        have h1 : 1 ≤ sizeQ (n :: rest) := by
          rw [sizeQ_cons]
          have := sizeA_pos n
          omega
        exact ⟨fuel' - 1, by omega⟩
      simp only [dumpPassF]
      rw [ih f2 (rest ++ childrenOf n) (by omega) (by omega)]

theorem dumpRecs_cons (ns : Nat) (n : AH) (rest : List AH) :
    dumpRecs ns (n :: rest)
      = recPatched rest.length ns n :: dumpRecs ns (rest ++ childrenOf n) := by
  unfold dumpRecs
  have h1 : sizeQ (n :: rest) = sizeQ (rest ++ childrenOf n) + 1 :=
    (sizeQ_step n rest).symm
  rw [h1]
  rfl

theorem dumpPost_cons (ns : Nat) (n : AH) (rest : List AH) :
    dumpPost ns (n :: rest)
      = nodeAfterDump rest.length ns n :: dumpPost ns (rest ++ childrenOf n) := by
  unfold dumpPost
  have h1 : sizeQ (n :: rest) = sizeQ (rest ++ childrenOf n) + 1 :=
    (sizeQ_step n rest).symm
  rw [h1]
  rfl

theorem restore_patch (qlen ns k : Nat) (bs : IBr) :
    restoreI (backupOffsets bs) (patchI qlen ns k bs) = bs := by
  cases bs with
  | nil => rfl
  | cons box idx ref child rest =>
    have := restore_patch qlen ns (k + 1) rest
    simp only [backupOffsets, patchI, restoreI, this]

theorem nodeAfterDump_id (qlen ns : Nat) (n : AH) : nodeAfterDump qlen ns n = n := by
  cases n with
  | leaf bs => rfl
  | internal bs =>
    simp only [nodeAfterDump, restore_patch]

theorem dumpPassF_snd (ns : Nat) (fuel : Nat) : ∀ Q : List AH,
    (dumpPassF ns fuel Q).2 = bfsQF fuel Q := by
  induction fuel with
  | zero =>
    intro Q
    cases Q <;> rfl
  | succ fuel ih =>
    intro Q
    cases Q with
    | nil => rfl
    | cons n rest =>
      show nodeAfterDump rest.length ns n :: (dumpPassF ns fuel (rest ++ childrenOf n)).2
          = n :: bfsQF fuel (rest ++ childrenOf n)
      rw [ih (rest ++ childrenOf n), nodeAfterDump_id]

/-- C4: after `Hybrid::DumpToFile` completes, every node of the live
in-memory tree — every node popped by the breadth-first queue loop, each of
which had its child offsets backed up, patched for the write and then
restored — is identical to its pre-dump state: the patch/restore pair of
the dump is perfectly inverse, for every tree and every record size. -/
theorem dump_restores_all_child_offsets (ns : Nat) (Q : List AH) :
    dumpPost ns Q = bfsQ Q := by
  unfold dumpPost bfsQ
  exact dumpPassF_snd ns (sizeQ Q) Q

theorem bfsQF_succ_cons (fuel : Nat) (n : AH) (rest : List AH) :
    bfsQF (fuel + 1) (n :: rest) = n :: bfsQF fuel (rest ++ childrenOf n) := rfl

theorem dumpPassF_succ_cons (ns fuel : Nat) (n : AH) (rest : List AH) :
    dumpPassF ns (fuel + 1) (n :: rest)
      = ((recPatched rest.length ns n :: (dumpPassF ns fuel (rest ++ childrenOf n)).1),
         (nodeAfterDump rest.length ns n :: (dumpPassF ns fuel (rest ++ childrenOf n)).2)) := rfl

theorem bfs_get_lt : ∀ (k : Nat) (fuel : Nat) (Q : List AH), sizeQ Q ≤ fuel →
    k < Q.length → (bfsQF fuel Q)[k]? = Q[k]? := by
  intro k
  induction k with
  | zero =>
    intro fuel Q hfuel hk
    cases Q with
    | nil => simp at hk
    | cons n rest =>
      obtain ⟨f, rfl⟩ : ∃ f, fuel = f + 1 := by
        rw [sizeQ_cons] at hfuel
        have := sizeA_pos n
        exact ⟨fuel - 1, by omega⟩
      rw [bfsQF_succ_cons]
      simp
  | succ k ih =>
    intro fuel Q hfuel hk
    cases Q with
    | nil => simp at hk
    | cons n rest =>
      obtain ⟨f, rfl⟩ : ∃ f, fuel = f + 1 := by
        rw [sizeQ_cons] at hfuel
        have := sizeA_pos n
        exact ⟨fuel - 1, by omega⟩
      rw [bfsQF_succ_cons, List.getElem?_cons_succ, List.getElem?_cons_succ]
      have hstep := sizeQ_step n rest
      rw [ih f (rest ++ childrenOf n) (by omega)
        (by rw [List.length_append]; simp at hk; omega)]
      rw [List.getElem?_append]
      rw [if_pos (by simp at hk; omega)]

theorem patchI_get (qlen ns : Nat) (bs : IBr) : ∀ (j k : Nat),
    (ibrToList (patchI qlen ns j bs))[k]?
      = ((ibrToList bs)[k]?).map
          (fun b3 => (b3.1, b3.2.1, ((qlen + j + k + 1) * ns : Int))) := by
  cases bs with
  | nil => intro j k; simp [patchI, ibrToList]
  | cons box idx ref child rest =>
    intro j k
    cases k with
    | zero =>
      simp only [patchI, ibrToList, List.getElem?_cons_zero, Option.map_some']
      have ha : ((qlen + j + 1) * ns : Int) = ((qlen + j + (0 : Nat) + 1) * ns : Int) := by
        push_cast
        ring
      rw [ha]
    | succ k =>
      simp only [patchI, ibrToList, List.getElem?_cons_succ]
      rw [patchI_get qlen ns rest (j + 1) k]
      cases hrk : (ibrToList rest)[k]? with
      | none => simp
      | some b3 =>
        simp only [Option.map_some']
        refine congrArg some ?_
        refine congrArg (Prod.mk b3.1) ?_
        refine congrArg (Prod.mk b3.2.1) ?_
        push_cast
        ring

theorem childrenI_ibr_get (bs : IBr) : ∀ (k : Nat) (c : AH),
    (childrenI bs)[k]? = some c →
    ∃ bx ix rf, (ibrToList bs)[k]? = some (bx, ix, rf) := by
  cases bs with
  | nil => intro k c hk; simp [childrenI] at hk
  | cons box idx ref child rest =>
    intro k c hk
    cases k with
    | zero =>
      refine ⟨box, idx, ref, ?_⟩
      simp [ibrToList]
    | succ k =>
      simp only [childrenI, List.getElem?_cons_succ] at hk
      obtain ⟨bx, ix, rf, h⟩ := childrenI_ibr_get rest k c hk
      exact ⟨bx, ix, rf, by simpa [ibrToList] using h⟩

theorem dump_offset_lemma (ns : Nat) : ∀ (p : Nat) (fuel : Nat) (Q : List AH)
    (bs : IBr) (k : Nat) (c : AH), sizeQ Q ≤ fuel →
    (bfsQF fuel Q)[p]? = some (.internal bs) →
    (childrenI bs)[k]? = some c →
    ∃ cp bx ix rec, p < cp ∧ (bfsQF fuel Q)[cp]? = some c ∧
      ((dumpPassF ns fuel Q).1)[p]? = some rec ∧
      rec.brs[k]? = some (bx, ix, (((cp - p : Nat)) * ns : Int)) := by
  intro p
  induction p with
  | zero =>
    intro fuel Q bs k c hfuel hp hk
    cases Q with
    | nil => cases fuel <;> simp [bfsQF] at hp
    | cons n rest =>
      obtain ⟨f, rfl⟩ : ∃ f, fuel = f + 1 := by
        rw [sizeQ_cons] at hfuel
        have := sizeA_pos n
        exact ⟨fuel - 1, by omega⟩
      rw [bfsQF_succ_cons] at hp
      have hn : n = .internal bs := by simpa using hp
      subst hn
      have hkl : k < (childrenI bs).length := by
        by_contra hge
        rw [List.getElem?_eq_none (by omega)] at hk
        cases hk
      have hstep := sizeQ_step (AH.internal bs) rest
      have hchOf : childrenOf (AH.internal bs) = childrenI bs := rfl
      have hcget : (bfsQF f (rest ++ childrenOf (AH.internal bs)))[rest.length + k]?
          = some c := by
        rw [bfs_get_lt (rest.length + k) f (rest ++ childrenOf (AH.internal bs))
          (by omega) (by rw [List.length_append, hchOf]; omega)]
        rw [List.getElem?_append_right (by omega)]
        rw [hchOf]
        have h0 : rest.length + k - rest.length = k := by omega
        rw [h0]
        exact hk
      obtain ⟨bx, ix, rf, hitl⟩ := childrenI_ibr_get bs k c hk
      refine ⟨1 + rest.length + k, bx, ix, recPatched rest.length ns (.internal bs),
        by omega, ?_, ?_, ?_⟩
      · rw [bfsQF_succ_cons]
        have h1 : 1 + rest.length + k = (rest.length + k) + 1 := by omega
        rw [h1, List.getElem?_cons_succ]
        exact hcget
      · rw [dumpPassF_succ_cons]
        simp
      · show (ibrToList (patchI rest.length ns 0 bs))[k]?
            = some (bx, ix, ((1 + rest.length + k - 0 : Nat) * ns : Int))
        rw [patchI_get rest.length ns bs 0 k, hitl]
        simp only [Option.map_some']
        have ha : ((rest.length + (0 : Nat) + k + 1) * ns : Int)
            = ((1 + rest.length + k - 0 : Nat) * ns : Int) := by
          have h2 : 1 + rest.length + k - 0 = rest.length + k + 1 := by omega
          rw [h2]
          push_cast
          ring
        rw [ha]
  | succ p ihp =>
    intro fuel Q bs k c hfuel hp hk
    cases Q with
    | nil => cases fuel <;> simp [bfsQF] at hp
    | cons n rest =>
      obtain ⟨f, rfl⟩ : ∃ f, fuel = f + 1 := by
        rw [sizeQ_cons] at hfuel
        have := sizeA_pos n
        exact ⟨fuel - 1, by omega⟩
      have hstep := sizeQ_step n rest
      rw [bfsQF_succ_cons, List.getElem?_cons_succ] at hp
      obtain ⟨cp, bx, ix, rec, hlt, hcg, hrg, hoff⟩ :=
        ihp f (rest ++ childrenOf n) bs k c (by omega) hp hk
      refine ⟨cp + 1, bx, ix, rec, by omega, ?_, ?_, ?_⟩
      · rw [bfsQF_succ_cons, List.getElem?_cons_succ]
        exact hcg
      · rw [dumpPassF_succ_cons]
        simp only [List.getElem?_cons_succ]
        exact hrg
      · have h1 : cp + 1 - (p + 1) = cp - p := by omega
        rw [h1]
        exact hoff

/-- C3 (amended): the child reference `DumpToFile` writes for the `k`-th
branch of an internal node at breadth-first position `p` is
`(cp - p) * sizeof(Node)` where `cp` is the *child's* breadth-first
position — a parent-relative byte offset (the queue size right after the
push), equal to `child_index_in_bfs_order * sizeof(Node)` only for children
of the root. -/
theorem dump_child_offset_parent_relative (ns : Nat) (Q : List AH) (p k : Nat)
    (bs : IBr) (c : AH) (hp : (bfsQ Q)[p]? = some (.internal bs))
    (hk : (childrenI bs)[k]? = some c) :
    ∃ cp bx ix rec, p < cp ∧ (bfsQ Q)[cp]? = some c ∧
      (dumpRecs ns Q)[p]? = some rec ∧
      rec.brs[k]? = some (bx, ix, (((cp - p : Nat)) * ns : Int)) := by
  unfold bfsQ at hp ⊢
  unfold dumpRecs
  exact dump_offset_lemma ns p (sizeQ Q) Q bs k c (le_refl _) hp hk

theorem readCnts_roundtrip : ∀ (l : List Nat) (rest : List Tok),
    readCnts l.length (l.map Tok.cnt ++ rest) = some (l, rest) := by
  intro l
  induction l with
  | nil => intro rest; rfl
  | cons c cs ih =>
    intro rest
    simp only [List.map_cons, List.cons_append, List.length_cons, readCnts, readCnt,
      Option.bind_eq_bind, Option.some_bind, List.append_eq]
    rw [ih rest]
    rfl

theorem readNodes_roundtrip : ∀ (l : List NRec) (rest : List Tok),
    readNodes l.length (l.map Tok.node ++ rest) = some (l, rest) := by
  intro l
  induction l with
  | nil => intro rest; rfl
  | cons r rs ih =>
    intro rest
    simp only [List.map_cons, List.cons_append, List.length_cons, readNodes,
      Option.bind_eq_bind, Option.some_bind, List.append_eq]
    rw [ih rest]
    rfl

theorem readSOAs_roundtrip : ∀ (l : List NodeSOA) (rest : List Tok),
    readSOAs l.length (l.map Tok.soa ++ rest) = some (l, rest) := by
  intro l
  induction l with
  | nil => intro rest; rfl
  | cons s ss ih =>
    intro rest
    simp only [List.map_cons, List.cons_append, List.length_cons, readSOAs,
      Option.bind_eq_bind, Option.some_bind, List.append_eq]
    rw [ih rest]
    rfl

theorem dumpPassF_fst_len (ns : Nat) (fuel : Nat) : ∀ Q : List AH,
    (dumpPassF ns fuel Q).1.length = (bfsQF fuel Q).length := by
  induction fuel with
  | zero => intro Q; cases Q <;> rfl
  | succ fuel ih =>
    intro Q
    cases Q with
    | nil => rfl
    | cons n rest =>
      rw [dumpPassF_succ_cons, bfsQF_succ_cons]
      simp only [List.length_cons]
      rw [ih (rest ++ childrenOf n)]

theorem patchI_strip (qlen ns : Nat) (bs : IBr) : ∀ j : Nat,
    (ibrToList (patchI qlen ns j bs)).map (fun b => (b.1, b.2.1))
      = (ibrToList bs).map (fun b => (b.1, b.2.1)) := by
  cases bs with
  | nil => intro j; rfl
  | cons box idx ref child rest =>
    intro j
    simp only [patchI, ibrToList, List.map_cons]
    rw [patchI_strip qlen ns rest (j + 1)]

theorem stripRec_recPatched (qlen ns : Nat) (n : AH) :
    stripRec (recPatched qlen ns n) = stripRec (recOf n) := by
  cases n with
  | leaf bs => rfl
  | internal bs =>
    simp only [recPatched, recOf, stripRec]
    rw [patchI_strip qlen ns bs 0]

theorem dumpPassF_strip (ns : Nat) (fuel : Nat) : ∀ Q : List AH,
    (dumpPassF ns fuel Q).1.map stripRec
      = (bfsQF fuel Q).map (fun n => stripRec (recOf n)) := by
  induction fuel with
  | zero => intro Q; cases Q <;> rfl
  | succ fuel ih =>
    intro Q
    cases Q with
    | nil => rfl
    | cons n rest =>
      rw [dumpPassF_succ_cons, bfsQF_succ_cons]
      simp only [List.map_cons]
      rw [ih (rest ++ childrenOf n), stripRec_recPatched]

/-- C2 (amended): loading the file produced by dumping a tree reconstructs
the same height (the length of `level_node_count`), the same
`level_node_count` sequence, the same `total_node_count` and
`leaf_node_count`, and the same `Node_SOA` records; the `Node` record read
at every breadth-first position agrees with the in-memory node at that
position on the node type and on every branch's box and branch index, but
each internal branch's child reference holds the serialized relative byte
offset rather than the original in-memory pointer value. -/
theorem dump_load_roundtrip (ns : Nat) (st : HState)
    (htot : st.total_node_count = (bfsQ [st.root]).length)
    (hleaf : st.leaf_node_count = st.node_soa.length) :
    dumpFromFile (dumpToFile ns st)
      = some ⟨st.level_node_count, st.total_node_count, st.leaf_node_count,
          dumpRecs ns [st.root], st.node_soa⟩
    ∧ (dumpRecs ns [st.root]).map stripRec
        = (bfsQ [st.root]).map (fun n => stripRec (recOf n)) := by
  constructor
  · have hlen1 : (dumpRecs ns [st.root]).length = (bfsQ [st.root]).length := by
      unfold dumpRecs bfsQ
      exact dumpPassF_fst_len ns (sizeQ [st.root]) [st.root]
    have h2 : st.total_node_count = (dumpRecs ns [st.root]).length := by omega
    unfold dumpToFile dumpFromFile
    simp only [readSz, Option.bind_eq_bind, Option.some_bind]
    rw [readCnts_roundtrip st.level_node_count]
    simp only [Option.some_bind, readCnt]
    rw [h2, readNodes_roundtrip (dumpRecs ns [st.root])]
    simp only [Option.some_bind]
    have h3 : st.node_soa.map Tok.soa = st.node_soa.map Tok.soa ++ [] := by simp
    rw [hleaf, h3, readSOAs_roundtrip st.node_soa]
    rfl
  · unfold dumpRecs bfsQ
    exact dumpPassF_strip ns (sizeQ [st.root]) [st.root]

/-- C8: if the named index file does not exist, `Hybrid::DumpFromFile`
returns `false` without touching the tree-owning fields, and
`Hybrid::Build` takes the fresh-build branch, dumps the fresh index to the
file store, and still returns `true` — a missing file is never a fatal
error. -/
theorem missing_index_file_triggers_fresh_build
    (fs : List (String × List Tok)) (name : String) (ns : Nat) (fresh : HState)
    (st : Option LState) (h : fileLookup fs name = none) :
    dumpFromFileFS fs name st = (false, st)
    ∧ hybridBuild fs name ns fresh st
        = { ret := true, loadView := st, builtFresh := true,
            fs := (name, dumpToFile ns fresh) :: fs } := by
  constructor
  · unfold dumpFromFileFS
    rw [h]
  · unfold hybridBuild dumpFromFileFS
    rw [h]
    rfl

theorem bruteRangesGo_eq (c : Nat) : ∀ (k s e : Nat),
    bruteRangesGo k c s e
      = (List.range k).map (fun i => (if i = 0 then s else e + (i - 1) * c, e + i * c)) := by
  intro k
  induction k with
  | zero => intro s e; rfl
  | succ k ih =>
    intro s e
    show (s, e) :: bruteRangesGo k c e (e + c) = _
    rw [ih e (e + c), List.range_succ_eq_map, List.map_cons, List.map_map]
    congr 1
    · simp
    · apply List.map_congr_left
      intro i hi
      simp only [Function.comp_apply]
      cases i with
      | zero => simp
      | succ i' =>
        simp only [if_neg (Nat.succ_ne_zero i'), if_neg (Nat.succ_ne_zero _),
          Nat.succ_sub_one, Prod.mk.injEq]
        constructor
        · ring
        · simp only [Nat.succ_eq_add_one]
          ring

theorem bruteRanges_eq (leaf nt : Nat) :
    bruteRanges leaf nt = (List.range nt).map (fun i =>
      (if i = 0 then 0 else leaf / nt + leaf % nt + (i - 1) * (leaf / nt),
        leaf / nt + leaf % nt + i * (leaf / nt))) := by
  unfold bruteRanges
  rw [bruteRangesGo_eq]

theorem bruteForceSortedOffsets_sorted (q : Box) (soa : List NodeSOA) (nt : Nat) :
    List.Sorted (fun a b => a ≤ b) (bruteForceSortedOffsets q soa nt) := by
  unfold bruteForceSortedOffsets
  have h := @List.sorted_mergeSort Nat (fun a b : Nat => decide (a ≤ b))
    (fun a b c hab hbc => by
      simp only [decide_eq_true_eq] at hab hbc ⊢
      omega)
    (fun a b => by
      simp only [decide_eq_true_eq, Bool.or_eq_true]
      omega)
    (((bruteRanges soa.length nt).map fun p => threadOffsets q soa p.1 p.2).flatten)
  exact h.imp fun hab => by simpa using hab

/-- C9 (amended): `BruteForceSearchOnCPU` partitions `[0, leaf_node_count)`
into `number_of_threads` contiguous, disjoint, covering ranges; the *first*
thread's range has size `leaf/nthreads + leaf%nthreads` (it absorbs the
remainder, not the last thread) and every later thread's range has size
`leaf/nthreads`; the last range ends exactly at `leaf_node_count`; and the
per-thread offset lists, concatenated after the join, are sorted
ascending. -/
theorem bruteforce_partition_props (leaf nt : Nat) (q : Box) (soa : List NodeSOA)
    (hnt : 0 < nt) :
    bruteRanges leaf nt = (List.range nt).map (fun i =>
        (if i = 0 then 0 else leaf / nt + leaf % nt + (i - 1) * (leaf / nt),
          leaf / nt + leaf % nt + i * (leaf / nt)))
    ∧ ((bruteRanges leaf nt).getLast?).map (fun p => p.2) = some leaf
    ∧ List.Sorted (fun a b => a ≤ b) (bruteForceSortedOffsets q soa nt) := by
  refine ⟨bruteRanges_eq leaf nt, ?_, bruteForceSortedOffsets_sorted q soa nt⟩
  obtain ⟨k, rfl⟩ : ∃ k, nt = k + 1 := ⟨nt - 1, by omega⟩
  rw [bruteRanges_eq, List.getLast?_map, List.range_succ, List.getLast?_concat]
  simp only [Option.map_some']
  have h1 := Nat.div_add_mod leaf (k + 1)
  have h2 : (k + 1) * (leaf / (k + 1)) = k * (leaf / (k + 1)) + leaf / (k + 1) := by
    ring
  congr 1
  omega

/-! ### Counterexamples and concrete witnesses -/

/-- With the uninitialized `thread_hit` modelled as starting at garbage
value 1 in thread 0, the brute-force total over the demo instance exceeds
the device total by exactly that garbage — the cross-validation equality
only holds when the accumulators happen to start at zero. -/
theorem bruteforce_uninit_garbage_demo :
    bruteForceTotalHits demoQ demoSOA 2 (fun i => if i = 0 then 1 else 0)
      = (searchJumps 2 4 4 demoT demoSOA demoQ 5 ⟨0, 2, 0⟩).hits + 1 := by
  decide

/-- C1 witness: the demo instance — 16 one-dimensional points, degree 4,
query overlapping exactly 12 of them — reports 12 hits on both the device
scan path and the zero-initialized brute-force path. -/
theorem device_bruteforce_witness :
    TreeWF 1 4 demoT demoSOA
      ∧ (searchJumps 2 4 4 demoT demoSOA demoQ 5 ⟨0, 2, 0⟩).hits
          = bruteForceTotalHits demoQ demoSOA 2 (fun i => 0) :=
  ⟨⟨by decide, by decide⟩, device_scan_equals_bruteforce_zero_init 1 4 2 4 2 5 2
    demoT demoSOA demoQ ⟨by decide, by decide⟩ (by decide) (by decide) (by decide)
    (by decide) (by decide) (by decide) (by decide) (by decide)⟩

/-- The demo search indeed reports 12 hits. -/
theorem demo_search_reports_twelve :
    (searchJumps 2 4 4 demoT demoSOA demoQ 5 ⟨0, 2, 0⟩).hits = 12 := by
  decide

/-- C2 counterexample: for the chain tree, the `Node` records read back are
*not* the in-memory records of the breadth-first node sequence — the loaded
internal child references hold the patched relative byte offsets, not the
original pointer values (999, 555). -/
theorem roundtrip_claim_counterexample :
    ¬ ((dumpFromFile (dumpToFile 8 cexHState)).map (fun l => l.nodes)
        = some ((bfsQ [cexHState.root]).map recOf)) := by
  decide

/-- C2 witness: the chain tree round-trips — counts, SOA records and all
non-child-reference node fields are reconstructed verbatim. -/
theorem dump_load_roundtrip_witness :
    (cexHState.total_node_count = (bfsQ [cexHState.root]).length
        ∧ cexHState.leaf_node_count = cexHState.node_soa.length)
      ∧ (dumpFromFile (dumpToFile 8 cexHState)
            = some ⟨cexHState.level_node_count, cexHState.total_node_count,
                cexHState.leaf_node_count, dumpRecs 8 [cexHState.root],
                cexHState.node_soa⟩
          ∧ (dumpRecs 8 [cexHState.root]).map stripRec
              = (bfsQ [cexHState.root]).map (fun n => stripRec (recOf n))) :=
  ⟨⟨by decide, by decide⟩, dump_load_roundtrip 8 cexHState (by decide) (by decide)⟩

/-- C3 counterexample: in the chain tree the node at breadth-first position
1 (`cexMid`) has its only child at breadth-first position 2, so the claim
demands the written child offset `2 * sizeof(Node) = 16`; the dump actually
writes `1 * sizeof(Node) = 8` (the queue size after the push). -/
theorem dump_offset_claim_counterexample :
    (bfsQ [cexRoot])[1]? = some cexMid ∧ (bfsQ [cexRoot])[2]? = some cexLeaf
      ∧ ((dumpRecs 8 [cexRoot])[1]?).map (fun rec => rec.brs.map (fun b3 => b3.2.2))
          = some [(8 : Int)]
      ∧ (8 : Int) ≠ 2 * 8 := by
  decide

/-- C3 witness: the parent-relative offset law instantiated on the chain
tree at breadth-first position 1. -/
theorem dump_child_offset_witness :
    ((bfsQ [cexRoot])[1]? = some (.internal (.cons [(0, 1)] 1 555 cexLeaf .nil))
        ∧ (childrenI (.cons [(0, 1)] 1 555 cexLeaf .nil))[0]? = some cexLeaf)
      ∧ ∃ cp bx ix rec, 1 < cp ∧ (bfsQ [cexRoot])[cp]? = some cexLeaf
          ∧ (dumpRecs 8 [cexRoot])[1]? = some rec
          ∧ rec.brs[0]? = some (bx, ix, (((cp - 1 : Nat)) * 8 : Int)) :=
  ⟨⟨by decide, by decide⟩,
    dump_child_offset_parent_relative 8 [cexRoot] 1 0
      (.cons [(0, 1)] 1 555 cexLeaf .nil) cexLeaf (by decide) (by decide)⟩

/-- C5 counterexample: both children of `cexBothQualify` satisfy the
descent guard for query `cexPointQ` and `visited_leafIndex = 0`, yet the
traversal visits only 2 nodes (root and first child) because it breaks at
the first positive result, while descending into every guarded child would
visit 3 — the "descends if and only if" claim fails in the "if"
direction. -/
theorem traversal_descend_iff_counterexample :
    (traverseInternalNodes cexPointQ 0 cexBothQualify).2 = 2
      ∧ visitAllA cexPointQ 0 cexBothQualify = 3
      ∧ (traverseInternalNodes cexPointQ 0 cexBothQualify).2
          ≠ visitAllA cexPointQ 0 cexBothQualify := by
  decide

/-- C5 witness: the amended characterization instantiated at the
two-qualifying-children tree. -/
theorem traversal_guard_characterization_witness :
    (0 : Int) ≤ 0
      ∧ (((traverseInternalNodes cexPointQ 0 cexBothQualify).1 = 0
            ↔ hasCandA cexPointQ 0 cexBothQualify = false)
          ∧ (∀ bs : List LBranch,
              ((traverseInternalNodes cexPointQ 0 (.leaf bs)).1 = 0
                  ∧ ∀ b ∈ bs, b.idx ≤ 0) ∨
                ∃ pre b post, bs = pre ++ b :: post ∧ (∀ b2 ∈ pre, b2.idx ≤ 0) ∧
                  (0 : Int) < b.idx
                  ∧ (traverseInternalNodes cexPointQ 0 (.leaf bs)).1 = b.idx)
          ∧ (traverseInternalNodes cexPointQ 0 cexBothQualify).2
              ≤ visitAllA cexPointQ 0 cexBothQualify) :=
  ⟨le_refl 0, traversal_guard_characterization cexPointQ 0 cexBothQualify (le_refl 0)⟩

/-- C6 witness: the clipped chunk on the demo instance stays inside the
leaf buffer. -/
theorem chunk_clip_witness :
    TreeWF 1 4 demoT demoSOA
      ∧ ((((traverseInternalNodes demoQ 0 demoT).1 - 1).tdiv ((4 : Nat) : Int)).toNat
            + clipChunk demoSOA.length
                (((traverseInternalNodes demoQ 0 demoT).1 - 1).tdiv ((4 : Nat) : Int)) 2
          ≤ demoSOA.length
        ∧ ∀ i < clipChunk demoSOA.length
              (((traverseInternalNodes demoQ 0 demoT).1 - 1).tdiv ((4 : Nat) : Int)) 2,
            (((traverseInternalNodes demoQ 0 demoT).1 - 1).tdiv ((4 : Nat) : Int)).toNat
              + i < demoSOA.length) :=
  ⟨⟨by decide, by decide⟩, chunk_clip_within_leaf_buffer 1 4 demoT demoSOA demoQ 0 2
    ⟨by decide, by decide⟩ (by decide) (by decide) (by decide) (by decide) (by decide)⟩

/-- C7 witness: on the demo instance a one-query search call never raises
the chunk size above its initial value. -/
theorem chunk_mono_witness :
    TreeWF 1 4 demoT demoSOA
      ∧ (searchQueries 2 4 4 demoT demoSOA [demoQ] 2 0).2 ≤ 2 :=
  ⟨⟨by decide, by decide⟩, (chunk_size_never_increases 1 4 2 4 demoT demoSOA
    ⟨by decide, by decide⟩ (by decide) (by decide)).2 [demoQ] 2 0⟩

/-- C8 witness: with an empty file store, the load reports failure leaving
the fields untouched and `Build` dumps the freshly built index. -/
theorem missing_file_witness :
    fileLookup [] "idx" = none
      ∧ (dumpFromFileFS [] "idx" none = (false, none)
          ∧ hybridBuild [] "idx" 8 cexHState none
              = { ret := true, loadView := none, builtFresh := true,
                  fs := [("idx", dumpToFile 8 cexHState)] }) :=
  ⟨rfl, missing_index_file_triggers_fresh_build [] "idx" 8 cexHState none rfl⟩

/-- C9 counterexample: for 5 leaf nodes and 2 threads the code partitions
as `[(0, 3), (3, 5)]` — the first thread absorbs the remainder — while the
claimed equal-chunks-with-last-thread-remainder partition is
`[(0, 2), (2, 5)]`. -/
theorem bruteforce_partition_claim_counterexample :
    bruteRanges 5 2 = [(0, 3), (3, 5)] ∧ claimRanges 5 2 = [(0, 2), (2, 5)]
      ∧ bruteRanges 5 2 ≠ claimRanges 5 2 := by
  decide

/-- C9 witness: the amended partition law at 5 leaves and 2 threads,
sortedness included. -/
theorem bruteforce_partition_witness :
    0 < 2
      ∧ (bruteRanges 5 2 = (List.range 2).map (fun i =>
            (if i = 0 then 0 else 5 / 2 + 5 % 2 + (i - 1) * (5 / 2),
              5 / 2 + 5 % 2 + i * (5 / 2)))
          ∧ ((bruteRanges 5 2).getLast?).map (fun p => p.2) = some 5
          ∧ List.Sorted (fun a b => a ≤ b) (bruteForceSortedOffsets demoQ demoSOA 2)) :=
  ⟨by decide, bruteforce_partition_props 5 2 demoQ demoSOA (by decide)⟩

/-- C10 witness: on the demo instance the traversal result maps to a leaf
offset inside the buffer with a positive remaining chunk. -/
theorem traversal_within_buffer_witness :
    TreeWF 1 4 demoT demoSOA
      ∧ ((∀ lb ∈ leafBranchesA demoT, 1 ≤ lb.idx)
          ∧ ((traverseInternalNodes demoQ 0 demoT).1 ≠ 0 →
              ((((traverseInternalNodes demoQ 0 demoT).1 - 1).tdiv ((4 : Nat) : Int))).toNat
                  < demoSOA.length
                ∧ 0 < demoSOA.length
                    - ((((traverseInternalNodes demoQ 0 demoT).1 - 1).tdiv
                        ((4 : Nat) : Int))).toNat
                ∧ 1 ≤ (traverseInternalNodes demoQ 0 demoT).1)) :=
  ⟨⟨by decide, by decide⟩, traversal_result_within_leaf_buffer 1 4 demoT demoSOA
    demoQ 0 ⟨by decide, by decide⟩ (by decide) (by decide)⟩
